import Mathlib

/-!
Verification development for the mcp-tools repository (two MCP servers:
a DuckDuckGo search/fetch server and a Hexo blog manager).

The TypeScript sources are shallowly embedded as executable Lean
definitions over `List Char` / `String`:

* `decodeEntities`, `stripHtml`, `parseDDGHtml`, `htmlToMarkdown` and the
  `fetchUrl` policy model the DuckDuckGo server
  (regex-driven rewriting is modelled by explicit left-to-right scanners
  that mirror the exact patterns and JavaScript `String.replace` global
  semantics);
* `parseFrontMatter`, `buildFrontMatter` and `readPostMeta` model the
  Hexo server's front-matter codec and `readPost` post-processing.

External platform primitives used by the sources (the HTTP transport,
WHATWG `URL` resolution, `JSON.parse`/`JSON.stringify`) are taken as
explicit function parameters of the fetch model; everything else is
translated directly from the source.
-/

namespace Mcp

set_option maxRecDepth 100000

/-! ## Character helpers -/

/-- The double-quote character. -/
def dquote : Char := Char.ofNat 34

/-- The single-quote (apostrophe) character. -/
def squote : Char := Char.ofNat 39

/-- The backtick character. -/
def btick : Char := Char.ofNat 96

/-- JavaScript regex `\s` / `trim` whitespace (the members that matter for
byte-level sources: space, tab, newline, carriage return, vertical tab,
form feed, no-break space). -/
def isJsSpace (c : Char) : Bool :=
  c = ' ' || c = '\t' || c = '\n' || c = '\r' ||
  c = Char.ofNat 11 || c = Char.ofNat 12 || c = Char.ofNat 160

/-- JavaScript regex `\w`: ASCII letters, digits, underscore. -/
def isWordChar (c : Char) : Bool :=
  ('a' ≤ c && c ≤ 'z') || ('A' ≤ c && c ≤ 'Z') || ('0' ≤ c && c ≤ '9') || c = '_'

/-- Characters allowed after the first character of a front-matter key
(regex class `[\w-]`). -/
def isKeyChar (c : Char) : Bool := isWordChar c || c = '-'

/-- ASCII digit test (regex `\d`). -/
def isDigitCh (c : Char) : Bool := '0' ≤ c && c ≤ '9'

/-- Quote characters stripped by the front-matter value cleanup
(regex class `["']`). -/
def isQuoteCh (c : Char) : Bool := c = dquote || c = squote

/-- ASCII lower-casing, modelling the `i` regex flag on the sources'
ASCII-only patterns. -/
def lcChar (c : Char) : Char :=
  if 'A' ≤ c && c ≤ 'Z' then Char.ofNat (c.toNat + 32) else c

/-! ## List-of-characters helpers -/

/-- JavaScript `String.prototype.trimEnd`. -/
def jsTrimEnd (l : List Char) : List Char :=
  (l.reverse.dropWhile isJsSpace).reverse

/-- JavaScript `String.prototype.trimStart`. -/
def jsTrimStart (l : List Char) : List Char := l.dropWhile isJsSpace

/-- JavaScript `String.prototype.trim`. -/
def jsTrim (l : List Char) : List Char := jsTrimStart (jsTrimEnd l)

/-- Whether `pat` occurs as a contiguous sublist of `l`. -/
def containsSub (pat : List Char) : List Char → Bool
  | [] => pat.isPrefixOf ([] : List Char)
  | c :: cs => pat.isPrefixOf (c :: cs) || containsSub pat cs

/-- Case-insensitive prefix test: `pat` is given lower-case, the text is
lower-cased character by character. -/
def ciStarts : List Char → List Char → Bool
  | [], _ => true
  | _ :: _, [] => false
  | p :: ps, c :: cs => lcChar c = p && ciStarts ps cs

/-- Split before the first case-insensitive occurrence of `pat`:
returns the text before the occurrence and the text after it
(the lazy-group-then-literal idiom `([\s\S]*?)pat`). -/
def findCiSub (pat : List Char) : List Char → Option (List Char × List Char)
  | [] => if ciStarts pat ([] : List Char) then some ([], []) else none
  | c :: cs =>
    if ciStarts pat (c :: cs) then some ([], List.drop pat.length (c :: cs))
    else
      match findCiSub pat cs with
      | some p => some (c :: p.1, p.2)
      | none => none

/-! ## Generic rewrite engine

JavaScript's `text.replace(re, f)` with a global regex scans left to
right; at each position it either applies a match (emitting a
replacement and resuming after the matched text) or moves one character
forward.  A *matcher* takes the remaining text and returns
`some (matchLength, replacement)` when the regex matches at the current
position.  The fuel argument is `length + 1`, enough for every scan
(every step consumes at least one character of input). -/

def rewriteAux (f : List Char → Option (Nat × List Char)) : Nat → List Char → List Char
  | 0, l => l
  | _ + 1, [] => []
  | fuel + 1, c :: cs =>
    match f (c :: cs) with
    | some p => p.2 ++ rewriteAux f fuel (List.drop (p.1 - 1) cs)
    | none => c :: rewriteAux f fuel cs

/-- One global replacement pass (JS `replace` with a `g` regex). -/
def rewritePass (f : List Char → Option (Nat × List Char)) (l : List Char) : List Char :=
  rewriteAux f (l.length + 1) l

/-- Matcher for a literal pattern (JS `replace(/lit/g, repl)`). -/
def litMatcher (pat repl : List Char) (l : List Char) : Option (Nat × List Char) :=
  if pat.isPrefixOf l then some (pat.length, repl) else none

/-- JS `text.replace(/pat/g, repl)` for a literal pattern. -/
def replaceLit (pat repl : List Char) (l : List Char) : List Char :=
  rewritePass (litMatcher pat repl) l

/-- Collect all matches of a global regex (the `while (m = re.exec(s))`
idiom): returns the list of `(fullMatch, capturedGroup)` pairs. -/
def collectAux (f : List Char → Option (Nat × List Char)) :
    Nat → List Char → List (List Char × List Char)
  | 0, _ => []
  | _ + 1, [] => []
  | fuel + 1, c :: cs =>
    match f (c :: cs) with
    | some p => ((c :: cs).take p.1, p.2) :: collectAux f fuel (List.drop (p.1 - 1) cs)
    | none => collectAux f fuel cs

/-- All `(fullMatch, group)` pairs of a matcher over a text. -/
def collectMatches (f : List Char → Option (Nat × List Char)) (l : List Char) :
    List (List Char × List Char) :=
  collectAux f (l.length + 1) l

/-! ## Entity decoding (`decodeEntities` in the DuckDuckGo server) -/

/-- Digits to a natural number. -/
def digitsToNat (ds : List Char) : Nat :=
  ds.foldl (fun n c => n * 10 + (c.toNat - 48)) 0

/-- `String.fromCharCode(Number(num))`: the code is reduced mod 2^16
(ToUint16).  Codes that are not valid scalar values (lone surrogates)
are not representable in a Lean `Char`; `Char.ofNat` maps them to NUL. -/
def jsFromCharCode (n : Nat) : Char := Char.ofNat (n % 65536)

/-- Matcher for the numeric character reference pass
`replace(/&#(\d+);/g, (_, num) => String.fromCharCode(Number(num)))`. -/
def numRefAt : List Char → Option (Nat × List Char)
  | '&' :: '#' :: cs =>
    let ds := cs.takeWhile isDigitCh
    if ds.isEmpty then none
    else
      match cs.drop ds.length with
      | ';' :: _ => some (2 + ds.length + 1, [jsFromCharCode (digitsToNat ds)])
      | _ => none
  | _ => none

/-- Whether a numeric character reference `&#NNN;` occurs anywhere. -/
def hasNumRef : List Char → Bool
  | [] => (numRefAt ([] : List Char)).isSome
  | c :: cs => (numRefAt (c :: cs)).isSome || hasNumRef cs

/-- The eleven literal entity patterns replaced by `decodeEntities`,
in source order. -/
def entPats : List (List Char) :=
  ["&amp;".data, "&lt;".data, "&gt;".data, "&quot;".data, "&#39;".data,
   "&nbsp;".data, "&mdash;".data, "&ndash;".data, "&hellip;".data,
   "&copy;".data, "&reg;".data]

/-- `decodeEntities` from the DuckDuckGo server: a fixed chain of global
replacement passes in source order (`&amp;` first, then `&lt;`, …, the
numeric pass after `&nbsp;`, then the typographic entities). -/
def decodeEntities (s : String) : String :=
  String.mk
    (replaceLit "&reg;".data "(R)".data
      (replaceLit "&copy;".data "(c)".data
        (replaceLit "&hellip;".data "...".data
          (replaceLit "&ndash;".data "--".data
            (replaceLit "&mdash;".data "---".data
              (rewritePass numRefAt
                (replaceLit "&nbsp;".data [' ']
                  (replaceLit "&#39;".data [squote]
                    (replaceLit "&quot;".data [dquote]
                      (replaceLit "&gt;".data ['>']
                        (replaceLit "&lt;".data ['<']
                          (replaceLit "&amp;".data ['&'] s.data))))))))))))

/-! ## `stripHtml` (DuckDuckGo server) -/

/-- Matcher for `<[^>]*>` (used by `stripHtml`): a `<`, a possibly empty
run of non-`>` characters, then `>`. -/
def tagMatchStar : List Char → Option (Nat × List Char)
  | '<' :: cs =>
    let run := cs.takeWhile (fun c => c != '>')
    match cs.drop run.length with
    | '>' :: _ => some (run.length + 2, [])
    | _ => none
  | _ => none

/-- Matcher for runs of JS whitespace, `\s+` → single space. -/
def wsRunMatcher : List Char → Option (Nat × List Char)
  | [] => none
  | c :: cs =>
    if isJsSpace c then some ((cs.takeWhile isJsSpace).length + 1, [' '])
    else none

/-- `stripHtml` from the DuckDuckGo server: remove tags, decode six
entities, collapse whitespace runs to single spaces (exact source
order). -/
def stripHtml (l : List Char) : List Char :=
  rewritePass wsRunMatcher
    (replaceLit "&nbsp;".data [' ']
      (replaceLit "&#39;".data [squote]
        (replaceLit "&quot;".data [dquote]
          (replaceLit "&gt;".data ['>']
            (replaceLit "&lt;".data ['<']
              (replaceLit "&amp;".data ['&']
                (rewritePass tagMatchStar l)))))))

/-! ## Identity lemmas for pattern-free text -/

/-- Whether a matcher fires at some suffix of `l`. -/
def fires (f : List Char → Option (Nat × List Char)) : List Char → Bool
  | [] => (f ([] : List Char)).isSome
  | c :: cs => (f (c :: cs)).isSome || fires f cs

theorem fires_false_suffix {f : List Char → Option (Nat × List Char)} :
    ∀ {l : List Char}, fires f l = false → ∀ t : List Char, t <:+ l → f t = none := by
  intro l
  induction l with
  | nil =>
    intro h t ht
    rw [List.suffix_nil] at ht
    subst ht
    simpa [fires, Option.isSome_iff_exists] using h
  | cons c cs ih =>
    intro h t ht
    simp only [fires, Bool.or_eq_false_iff] at h
    rcases List.suffix_cons_iff.mp ht with rfl | ht'
    · simpa [Option.isSome_iff_exists] using h.1
    · exact ih h.2 t ht'

theorem rewriteAux_id {f : List Char → Option (Nat × List Char)} :
    ∀ (fuel : Nat) (l : List Char), (∀ t : List Char, t <:+ l → f t = none) →
      rewriteAux f fuel l = l := by
  intro fuel
  induction fuel with
  | zero => intro l _; rfl
  | succ n ih =>
    intro l h
    cases l with
    | nil => rfl
    | cons c cs =>
      have hc : f (c :: cs) = none := h (c :: cs) (List.suffix_refl _)
      simp only [rewriteAux, hc]
      rw [ih cs (fun t ht => h t (ht.trans (List.suffix_cons c cs)))]

theorem rewritePass_id {f : List Char → Option (Nat × List Char)} {l : List Char}
    (h : fires f l = false) : rewritePass f l = l :=
  rewriteAux_id _ l (fires_false_suffix h)

theorem fires_litMatcher (pat repl : List Char) :
    ∀ l : List Char, fires (litMatcher pat repl) l = containsSub pat l := by
  intro l
  induction l with
  | nil => by_cases h : pat.isPrefixOf ([] : List Char) <;> simp [fires, containsSub, litMatcher, h]
  | cons c cs ih =>
    simp only [fires, containsSub, ih]
    by_cases h : pat.isPrefixOf (c :: cs) <;> simp [litMatcher, h]

theorem replaceLit_id {pat repl l : List Char} (h : containsSub pat l = false) :
    replaceLit pat repl l = l :=
  rewritePass_id (by rw [fires_litMatcher]; exact h)

theorem numeric_pass_id {l : List Char} (h : hasNumRef l = false) :
    rewritePass numRefAt l = l := by
  have : fires numRefAt l = false := by
    induction l with
    | nil => simpa [fires, hasNumRef] using h
    | cons c cs ih =>
      simp only [hasNumRef, Bool.or_eq_false_iff] at h
      simp [fires, h.1, ih h.2]
  exact rewritePass_id this

/-- No entity pattern of `decodeEntities` occurs in `s`: none of the
eleven named patterns and no numeric character reference. -/
def entityFree (s : String) : Bool :=
  entPats.all (fun p => !containsSub p s.data) && !hasNumRef s.data

theorem decodeEntities_id {s : String} (h : entityFree s = true) :
    decodeEntities s = s := by
  have h2 := Bool.and_eq_true_iff.mp h
  have hall : ∀ p ∈ entPats, containsSub p s.data = false := by
    intro p hp
    have := (List.all_eq_true.mp h2.1) p hp
    simpa using this
  have hnum : hasNumRef s.data = false := by
    simpa using h2.2
  unfold decodeEntities
  rw [replaceLit_id (hall "&amp;".data (by simp [entPats]))]
  rw [replaceLit_id (hall "&lt;".data (by simp [entPats]))]
  rw [replaceLit_id (hall "&gt;".data (by simp [entPats]))]
  rw [replaceLit_id (hall "&quot;".data (by simp [entPats]))]
  rw [replaceLit_id (hall "&#39;".data (by simp [entPats]))]
  rw [replaceLit_id (hall "&nbsp;".data (by simp [entPats]))]
  rw [numeric_pass_id hnum]
  rw [replaceLit_id (hall "&mdash;".data (by simp [entPats]))]
  rw [replaceLit_id (hall "&ndash;".data (by simp [entPats]))]
  rw [replaceLit_id (hall "&hellip;".data (by simp [entPats]))]
  rw [replaceLit_id (hall "&copy;".data (by simp [entPats]))]
  rw [replaceLit_id (hall "&reg;".data (by simp [entPats]))]

/-! ## DuckDuckGo result extraction (`parseDDGHtml`) -/

structure SearchResult where
  title : String
  url : String
  snippet : String
deriving DecidableEq

/-- The closing-anchor literal `</a>`. -/
def anchorClose : List Char := "</a>".data

/-- `class="result__a"` (the result-link marker). -/
def resultAMarker : List Char := "class=".data ++ [dquote] ++ "result__a".data ++ [dquote]

/-- `class="result__snippet"` (the result-snippet marker). -/
def resultSnippetMarker : List Char :=
  "class=".data ++ [dquote] ++ "result__snippet".data ++ [dquote]

/-- Matcher for `<a\s[^>]*MARKER[^>]*>([\s\S]*?)<\/a>` with flags `gi`:
`<a`, one whitespace character, a `>`-free attribute run that contains
the marker, the closing `>`, then the lazy body up to the first `</a>`.
(The greedy-with-backtracking `[^>]*MARKER[^>]*` matches exactly when the
marker occurs inside the maximal `>`-free run.) -/
def tryMarkedAnchor (marker : List Char) (l : List Char) : Option (Nat × List Char) :=
  if ciStarts "<a".data l then
    match List.drop 2 l with
    | [] => none
    | w :: rest =>
      if isJsSpace w then
        let attrs := rest.takeWhile (fun c => c != '>')
        match rest.drop attrs.length with
        | [] => none
        | _ :: afterGt =>
          if (findCiSub marker attrs).isSome then
            match findCiSub anchorClose afterGt with
            | some (inner, _) =>
              some (2 + 1 + attrs.length + 1 + inner.length + 4, inner)
            | none => none
          else none
      else none
  else none

/-- The `href="([^"]*)"` pattern (flag `i`). -/
def hrefPat : List Char := "href=".data ++ [dquote]

/-- First match of `/href="([^"]*)"/i` in a tag: the captured group, or
`none` when the pattern does not match. -/
def findHrefCap : List Char → Option (List Char)
  | [] => none
  | c :: cs =>
    if ciStarts hrefPat (c :: cs) then
      let after := List.drop hrefPat.length (c :: cs)
      if after.contains dquote then some (after.takeWhile (fun x => x != dquote))
      else none
    else findHrefCap cs

/-- All matches of the result-link regex over the page. -/
def resultLinkMatches (l : List Char) : List (List Char × List Char) :=
  collectMatches (tryMarkedAnchor resultAMarker) l

/-- One result link: `href` capture (trimmed) and tag-stripped inner
text (trimmed); `none` when either is empty (the pair is discarded). -/
def linkEntry (m : List Char × List Char) : Option (String × String) :=
  let url := jsTrim ((findHrefCap m.1).getD [])
  let title := jsTrim (stripHtml m.2)
  if url = [] || title = [] then none else some (String.mk url, String.mk title)

/-- The `(url, title)` pairs extracted from the result links. -/
def extractLinks (l : List Char) : List (String × String) :=
  (resultLinkMatches l).filterMap linkEntry

/-- The snippet texts extracted from the result-snippet anchors (no
emptiness filtering, matching the source). -/
def extractSnippets (l : List Char) : List String :=
  (collectMatches (tryMarkedAnchor resultSnippetMarker) l).map
    (fun m => String.mk (jsTrim (stripHtml m.2)))

/-- `parseDDGHtml` from the DuckDuckGo server: pair the i-th link with
the i-th snippet for `i < min(links.length, max)`, defaulting missing
snippets to the empty string. -/
def parseDDGHtml (html : String) (max : Nat) : List SearchResult :=
  let links := extractLinks html.data
  let snippets := extractSnippets html.data
  (List.range (Nat.min links.length max)).map (fun i =>
    { title := (links.getD i ("", "")).2
      url := (links.getD i ("", "")).1
      snippet := snippets.getD i "" })

/-! ## HTML → Markdown (`htmlToMarkdown`) -/

/-- First name (in alternation order) that case-insensitively starts the
text: JS regex alternation `(a|b|…)`. -/
def pickName (names : List (List Char)) (l : List Char) : Option (List Char) :=
  names.find? (fun nm => ciStarts nm l)

/-- Matcher for `<(n1|n2|…)[^>]*>([\s\S]*?)<\/\1>` with flags `gi`:
open tag with one of the names, `>`-free attribute run, `>`, lazy body
up to the matching close tag (the backreference). Returns
`(length, inner, matchedName)`. -/
def tryNamedPair (names : List (List Char)) (l : List Char) :
    Option (Nat × List Char × List Char) :=
  match l with
  | '<' :: cs =>
    match pickName names cs with
    | some nm =>
      let rest := cs.drop nm.length
      let attrs := rest.takeWhile (fun c => c != '>')
      match rest.drop attrs.length with
      | '>' :: body =>
        match findCiSub ('<' :: '/' :: (nm ++ ['>'])) body with
        | some (inner, _) =>
          some (1 + nm.length + attrs.length + 1 + inner.length + (nm.length + 3),
                inner, nm)
        | none => none
      | _ => none
    | none => none
  | _ => none

/-- Split before the first case-insensitive occurrence of any of the
patterns (all patterns have equal length in our uses). -/
def findCiSubAny (pats : List (List Char)) : List Char → Option (List Char × List Char)
  | [] =>
    match pats.find? (fun p => ciStarts p ([] : List Char)) with
    | some _ => some ([], [])
    | none => none
  | c :: cs =>
    match pats.find? (fun p => ciStarts p (c :: cs)) with
    | some p => some ([], List.drop p.length (c :: cs))
    | none =>
      match findCiSubAny pats cs with
      | some r => some (c :: r.1, r.2)
      | none => none

/-- Matcher for `<h[4-6][^>]*>([\s\S]*?)<\/h[4-6]>` (flags `gi`): the
closing tag may use a different digit than the opening one.  Returns
the replacement `\n#### $1\n`. -/
def tryHRange (l : List Char) : Option (Nat × List Char) :=
  match l with
  | '<' :: c1 :: c2 :: cs =>
    if lcChar c1 = 'h' && (c2 = '4' || c2 = '5' || c2 = '6') then
      let attrs := cs.takeWhile (fun c => c != '>')
      match cs.drop attrs.length with
      | '>' :: body =>
        match findCiSubAny ["</h4>".data, "</h5>".data, "</h6>".data] body with
        | some (inner, _) =>
          some (3 + attrs.length + 1 + inner.length + 5,
                '\n' :: '#' :: '#' :: '#' :: '#' :: ' ' :: (inner ++ ['\n']))
        | none => none
      | _ => none
    else none
  | _ => none

/-- One candidate split for the anchor rewrite regex
`<a[^>]*href="([^"]*)"[^>]*>([\s\S]*?)<\/a>` at offset `k` after `<a`:
`href="` (ci) at `k`, then the `"`-free capture, `"`, a `>`-free run,
`>`, and the lazy body up to `</a>`.  Returns the consumed length
(relative to the text after `<a`) and the replacement `[$2]($1)`. -/
def anchorTryAt (base : List Char) (k : Nat) : Option (Nat × List Char) :=
  if ciStarts hrefPat (base.drop k) then
    let afterH := base.drop (k + 6)
    let cap := afterH.takeWhile (fun c => c != dquote)
    match afterH.drop cap.length with
    | _ :: tail2 =>
      let battrs := tail2.takeWhile (fun c => c != '>')
      match tail2.drop battrs.length with
      | '>' :: body =>
        match findCiSub anchorClose body with
        | some (inner, _) =>
          some (k + 6 + cap.length + 1 + battrs.length + 1 + inner.length + 4,
                '[' :: (inner ++ ']' :: '(' :: (cap ++ [')'])))
        | none => none
      | _ => none
    | [] => none
  else none

/-- Greedy search for the anchor rewrite: the first `[^>]*` is greedy,
so the rightmost viable `href="` inside the `>`-free run wins. -/
def anchorSearch (base : List Char) : Nat → Option (Nat × List Char)
  | 0 => anchorTryAt base 0
  | k + 1 =>
    match anchorTryAt base (k + 1) with
    | some r => some r
    | none => anchorSearch base k

/-- Matcher for the anchor rewrite pass. -/
def tryAnchorHref : List Char → Option (Nat × List Char)
  | '<' :: c :: cs =>
    if lcChar c = 'a' then
      match anchorSearch cs (cs.takeWhile (fun x => x != '>')).length with
      | some r => some (2 + r.1, r.2)
      | none => none
    else none
  | _ => none

/-- Matcher for `<\/(p|div)>` → `\n\n`. -/
def tryPDivClose (l : List Char) : Option (Nat × List Char) :=
  if ciStarts "</p>".data l then some (4, ['\n', '\n'])
  else if ciStarts "</div>".data l then some (6, ['\n', '\n'])
  else none

/-- Matcher for `<br\s*\/?>` → `\n`. -/
def tryBr : List Char → Option (Nat × List Char)
  | '<' :: c1 :: c2 :: cs =>
    if lcChar c1 = 'b' && lcChar c2 = 'r' then
      let ws := cs.takeWhile isJsSpace
      match cs.drop ws.length with
      | '/' :: '>' :: _ => some (3 + ws.length + 2, ['\n'])
      | '>' :: _ => some (3 + ws.length + 1, ['\n'])
      | _ => none
    else none
  | _ => none

/-- Matcher for comments `<!--[\s\S]*?-->` → removed. -/
def tryComment (l : List Char) : Option (Nat × List Char) :=
  if "<!--".data.isPrefixOf l then
    match findCiSub "-->".data (l.drop 4) with
    | some (inner, _) => some (4 + inner.length + 3, [])
    | none => none
  else none

/-- Matcher for `<[^>]+>` (the final tag-stripping pass: at least one
character between the brackets). -/
def tagMatchPlus : List Char → Option (Nat × List Char)
  | '<' :: cs =>
    let run := cs.takeWhile (fun c => c != '>')
    if run.isEmpty then none
    else
      match cs.drop run.length with
      | '>' :: _ => some (run.length + 2, [])
      | _ => none
  | _ => none

/-- Matcher for `\n{3,}` → `\n\n`. -/
def tryNlRun : List Char → Option (Nat × List Char)
  | '\n' :: cs =>
    let run := cs.takeWhile (fun c => c = '\n')
    if run.length + 1 ≥ 3 then some (run.length + 1, ['\n', '\n']) else none
  | _ => none

/-- Matcher for `[ \t]+` → a single space. -/
def trySpaceTabRun : List Char → Option (Nat × List Char)
  | c :: cs =>
    if c = ' ' || c = '\t' then
      some ((cs.takeWhile (fun x => x = ' ' || x = '\t')).length + 1, [' '])
    else none
  | [] => none

/-- `text.split('\n')` on characters. -/
def splitOnNl : List Char → List (List Char)
  | [] => [[]]
  | c :: cs =>
    if c = '\n' then [] :: splitOnNl cs
    else
      match splitOnNl cs with
      | [] => [[c]]
      | g :: gs => (c :: g) :: gs

/-- `lines.join('\n')` on characters. -/
def joinNlCh : List (List Char) → List Char
  | [] => []
  | [l] => l
  | l :: l' :: ls => l ++ '\n' :: joinNlCh (l' :: ls)

/-- First match of a named tag pair (non-global regex `match`): the
captured inner text. -/
def findFirstInner (names : List (List Char)) : List Char → Option (List Char)
  | [] =>
    match tryNamedPair names ([] : List Char) with
    | some r => some r.2.1
    | none => none
  | c :: cs =>
    match tryNamedPair names (c :: cs) with
    | some r => some r.2.1
    | none => findFirstInner names cs

/-- Result record of `htmlToMarkdown`. -/
structure MdResult where
  content : String
  title : String
deriving DecidableEq

/-- The non-content elements removed wholesale, in alternation order. -/
def removeNames : List (List Char) :=
  ["script".data, "style".data, "nav".data, "footer".data, "header".data,
   "aside".data, "iframe".data, "noscript".data]

/-- `htmlToMarkdown` from the DuckDuckGo server: title extraction, then
the fixed ordered sequence of rewrite passes of the source (removal,
comments, h1–h3, h4–h6, anchors, list items, paragraph breaks, line
breaks, bold, italics, code, pre, tag stripping, entity decoding,
whitespace normalization, per-line trim, final trim). -/
def htmlToMarkdown (html : String) : MdResult :=
  let title :=
    match findFirstInner ["title".data] html.data with
    | some inn => decodeEntities (String.mk (jsTrim inn))
    | none => ""
  let t1 := rewritePass (fun l => (tryNamedPair removeNames l).map (fun r => (r.1, []))) html.data
  let t2 := rewritePass tryComment t1
  let t3 := rewritePass (fun l => (tryNamedPair ["h1".data] l).map
    (fun r => (r.1, '\n' :: '#' :: ' ' :: (r.2.1 ++ ['\n'])))) t2
  let t4 := rewritePass (fun l => (tryNamedPair ["h2".data] l).map
    (fun r => (r.1, '\n' :: '#' :: '#' :: ' ' :: (r.2.1 ++ ['\n'])))) t3
  let t5 := rewritePass (fun l => (tryNamedPair ["h3".data] l).map
    (fun r => (r.1, '\n' :: '#' :: '#' :: '#' :: ' ' :: (r.2.1 ++ ['\n'])))) t4
  let t6 := rewritePass tryHRange t5
  let t7 := rewritePass tryAnchorHref t6
  let t8 := rewritePass (fun l => (tryNamedPair ["li".data] l).map
    (fun r => (r.1, '-' :: ' ' :: (r.2.1 ++ ['\n'])))) t7
  let t9 := rewritePass tryPDivClose t8
  let t10 := rewritePass tryBr t9
  let t11 := rewritePass (fun l => (tryNamedPair ["strong".data, "b".data] l).map
    (fun r => (r.1, '*' :: '*' :: (r.2.1 ++ ['*', '*'])))) t10
  let t12 := rewritePass (fun l => (tryNamedPair ["em".data, "i".data] l).map
    (fun r => (r.1, '_' :: (r.2.1 ++ ['_'])))) t11
  let t13 := rewritePass (fun l => (tryNamedPair ["code".data] l).map
    (fun r => (r.1, btick :: (r.2.1 ++ [btick])))) t12
  let t14 := rewritePass (fun l => (tryNamedPair ["pre".data] l).map
    (fun r => (r.1, '\n' :: btick :: btick :: btick :: '\n' ::
      (r.2.1 ++ '\n' :: btick :: btick :: btick :: ['\n'])))) t13
  let t15 := rewritePass tagMatchPlus t14
  let t16 := (decodeEntities (String.mk t15)).data
  let t17 := rewritePass tryNlRun t16
  let t18 := rewritePass trySpaceTabRun t17
  let t19 := joinNlCh ((splitOnNl t18).map jsTrim)
  ⟨String.mk (jsTrim t19), title⟩

/-- A one-character string holding a double quote (for building test
pages). -/
def qm : String := String.mk [dquote]

/-- A DuckDuckGo result link anchor. -/
def ddgLink (url title : String) : String :=
  "<a class=" ++ qm ++ "result__a" ++ qm ++ " href=" ++ qm ++ url ++ qm ++ ">"
    ++ title ++ "</a>"

/-- A DuckDuckGo result snippet anchor. -/
def ddgSnippet (text : String) : String :=
  "<a class=" ++ qm ++ "result__snippet" ++ qm ++ ">" ++ text ++ "</a>"

/-- A results page with 3 link matches and 2 snippet matches. -/
def c6Html : String :=
  ddgLink "https://one.example/" "First" ++ ddgSnippet "Snippet one"
    ++ ddgLink "https://two.example/" "Second" ++ ddgSnippet "Snippet two"
    ++ ddgLink "https://three.example/" "Third"

/-! ## Fetch policy (`fetchUrl`)

The HTTP transport, WHATWG `URL` resolution (`new URL(location,
currentUrl)`) and `JSON.parse`/`JSON.stringify` are platform
primitives, modelled as explicit parameters: `tr` maps the request
index and URL to the response, `resolve loc base` is the resolved URL,
and `jsonPretty` returns `none` when `JSON.parse` would throw.  The
request trace is recorded to state which URLs are fetched. -/

/-- `MAX_FETCH_SIZE = 1024 * 1024`. -/
def MAX_FETCH_SIZE : Nat := 1024 * 1024

/-- `MAX_REDIRECTS = 5`. -/
def MAX_REDIRECTS : Nat := 5

/-- An HTTP response as consumed by `fetchUrl`: status, `location` and
`content-length` and `content-type` headers, body text. -/
structure Response where
  status : Nat
  location : Option String
  contentLength : Option Nat
  contentType : String
  body : String
deriving DecidableEq

/-- The observable outcomes of `fetchUrl`: each `throw` in the source
and the success record. -/
inductive FetchOutcome where
  | noResponse
  | tooManyRedirects
  | httpError (status : Nat)
  | tooLargeDeclared (declared : Nat)
  | tooLargeAfterDownload
  | ok (content title : String) (statusCode : Nat) (finalUrl : String) (contentLength : Nat)
deriving DecidableEq

/-- State when the redirect-following `while` loop exits. -/
structure LoopResult where
  finalUrl : String
  redirectCount : Nat
  response : Option Response
  trace : List String

/-- The redirect loop `while (redirectCount <= MAX_REDIRECTS)`: the fuel
is `MAX_REDIRECTS + 1 - redirectCount`, which decreases exactly when the
loop continues (each continuation increments `redirectCount`). -/
def fetchLoop (resolve : String → String → String) (tr : Nat → String → Response) :
    Nat → String → Nat → Nat → List String → Option Response → LoopResult
  | 0, url, rc, _, trace, last => ⟨url, rc, last, trace⟩
  | fuel + 1, url, rc, idx, trace, _ =>
    let resp := tr idx url
    if 300 ≤ resp.status ∧ resp.status < 400 then
      match resp.location with
      | none => ⟨url, rc, some resp, trace ++ [url]⟩
      | some loc =>
        fetchLoop resolve tr fuel (resolve loc url) (rc + 1) (idx + 1)
          (trace ++ [url]) (some resp)
    else ⟨url, rc, some resp, trace ++ [url]⟩

/-- Run the redirect loop from the initial state. -/
def fetchLoopRun (resolve : String → String → String) (tr : Nat → String → Response)
    (url : String) : LoopResult :=
  fetchLoop resolve tr (MAX_REDIRECTS + 1) url 0 0 [] none

/-- `fetchUrl` from the DuckDuckGo server: the redirect loop followed by
the source's checks in order — missing response, redirect cap, non-2xx
status (`response.ok`), declared content length against the cap, actual
body size against the cap, then content-type dispatch (HTML/XHTML →
`htmlToMarkdown`, JSON → pretty-print with raw fallback, else pass
through). -/
def fetchUrl (resolve : String → String → String) (jsonPretty : String → Option String)
    (tr : Nat → String → Response) (url : String) : FetchOutcome :=
  let r := fetchLoopRun resolve tr url
  match r.response with
  | none => .noResponse
  | some resp =>
    if r.redirectCount > MAX_REDIRECTS then .tooManyRedirects
    else if ¬ (200 ≤ resp.status ∧ resp.status < 300) then .httpError resp.status
    else
      let contentLength := resp.contentLength.getD 0
      if contentLength > MAX_FETCH_SIZE then .tooLargeDeclared contentLength
      else
        let rawText := resp.body
        if rawText.length > MAX_FETCH_SIZE then .tooLargeAfterDownload
        else
          let ct := resp.contentType
          if containsSub "text/html".data ct.data
              || containsSub "application/xhtml".data ct.data then
            let parsed := htmlToMarkdown rawText
            .ok parsed.content parsed.title resp.status r.finalUrl parsed.content.length
          else if containsSub "application/json".data ct.data then
            match jsonPretty rawText with
            | some pretty => .ok pretty "" resp.status r.finalUrl pretty.length
            | none => .ok rawText "" resp.status r.finalUrl rawText.length
          else .ok rawText "" resp.status r.finalUrl rawText.length

/-- The sequence of URLs requested by `fetchUrl`. -/
def fetchTrace (resolve : String → String → String) (tr : Nat → String → Response)
    (url : String) : List String :=
  (fetchLoopRun resolve tr url).trace

/-- The URL reached after `n` redirect hops when the `i`-th response's
`Location` is `L i (requested url)`: each hop resolves the location
against the current URL. -/
def chainFrom (resolve : String → String → String) (L : Nat → String → String) :
    Nat → String → Nat → String
  | _, u, 0 => u
  | idx, u, n + 1 => chainFrom resolve L (idx + 1) (resolve (L idx u) u) n

/-- The first `n` URLs requested along the redirect chain. -/
def traceFrom (resolve : String → String → String) (L : Nat → String → String) :
    Nat → String → Nat → List String
  | _, _, 0 => []
  | idx, u, n + 1 => u :: traceFrom resolve L (idx + 1) (resolve (L idx u) u) n

theorem traceFrom_length (resolve : String → String → String) (L : Nat → String → String) :
    ∀ (n idx : Nat) (u : String), (traceFrom resolve L idx u n).length = n := by
  intro n
  induction n with
  | zero => intro idx u; rfl
  | succ m ih => intro idx u; simp [traceFrom, ih]

/-- Unfolding of the redirect loop when every response is a redirect
with a `Location` header. -/
theorem fetchLoop_all_redirect
    (resolve : String → String → String) (tr : Nat → String → Response)
    (L : Nat → String → String)
    (h : ∀ i u, 300 ≤ (tr i u).status ∧ (tr i u).status < 400
          ∧ (tr i u).location = some (L i u)) :
    ∀ (fuel idx rc : Nat) (u : String) (trace : List String) (last : Option Response),
      fetchLoop resolve tr fuel u rc idx trace last =
        ⟨chainFrom resolve L idx u fuel, rc + fuel,
         (match fuel with
          | 0 => last
          | f + 1 => some (tr (idx + f) (chainFrom resolve L idx u f))),
         trace ++ traceFrom resolve L idx u fuel⟩ := by
  intro fuel
  induction fuel with
  | zero =>
    intro idx rc u trace last
    simp [fetchLoop, chainFrom, traceFrom]
  | succ f ih =>
    intro idx rc u trace last
    obtain ⟨h1, h2, h3⟩ := h idx u
    simp only [fetchLoop, h3]
    rw [if_pos ⟨h1, h2⟩]
    rw [ih (idx + 1) (rc + 1) (resolve (L idx u) u) (trace ++ [u]) (some (tr idx u))]
    have hrc : rc + 1 + f = rc + (f + 1) := by omega
    have hchain : ∀ n, chainFrom resolve L (idx + 1) (resolve (L idx u) u) n
        = chainFrom resolve L idx u (n + 1) := fun n => rfl
    have htrace : trace ++ [u] ++ traceFrom resolve L (idx + 1) (resolve (L idx u) u) f
        = trace ++ traceFrom resolve L idx u (f + 1) := by
      simp [traceFrom]
    cases f with
    | zero => simp [hrc, hchain, htrace, chainFrom, traceFrom]
    | succ f' =>
      simp only [hrc, hchain, htrace]
      have hidx : idx + 1 + f' = idx + (f' + 1) := by omega
      rw [hidx]

/-- Unfolding of the redirect loop when the first `k` responses redirect
and the `(k+1)`-st (at the chained URL) does not. -/
theorem fetchLoop_stops
    (resolve : String → String → String) (tr : Nat → String → Response)
    (L : Nat → String → String) :
    ∀ (k fuel idx rc : Nat) (u : String) (trace : List String) (last : Option Response),
      k < fuel →
      (∀ i, i < k →
        300 ≤ (tr (idx + i) (chainFrom resolve L idx u i)).status ∧
        (tr (idx + i) (chainFrom resolve L idx u i)).status < 400 ∧
        (tr (idx + i) (chainFrom resolve L idx u i)).location
          = some (L (idx + i) (chainFrom resolve L idx u i))) →
      ¬ (300 ≤ (tr (idx + k) (chainFrom resolve L idx u k)).status ∧
         (tr (idx + k) (chainFrom resolve L idx u k)).status < 400) →
      fetchLoop resolve tr fuel u rc idx trace last =
        ⟨chainFrom resolve L idx u k, rc + k,
         some (tr (idx + k) (chainFrom resolve L idx u k)),
         trace ++ traceFrom resolve L idx u k ++ [chainFrom resolve L idx u k]⟩ := by
  intro k
  induction k with
  | zero =>
    intro fuel idx rc u trace last hf _ hfin
    cases fuel with
    | zero => omega
    | succ f =>
      simp only [chainFrom, Nat.add_zero] at hfin ⊢
      simp only [fetchLoop]
      rw [if_neg hfin]
      simp [traceFrom]
  | succ k' ih =>
    intro fuel idx rc u trace last hf hred hfin
    cases fuel with
    | zero => omega
    | succ f =>
      have h0 := hred 0 (Nat.succ_pos k')
      simp only [chainFrom, Nat.add_zero] at h0
      obtain ⟨h1, h2, h3⟩ := h0
      simp only [fetchLoop, h3]
      rw [if_pos ⟨h1, h2⟩]
      have hred' : ∀ i, i < k' →
          300 ≤ (tr (idx + 1 + i) (chainFrom resolve L (idx + 1) (resolve (L idx u) u) i)).status ∧
          (tr (idx + 1 + i) (chainFrom resolve L (idx + 1) (resolve (L idx u) u) i)).status < 400 ∧
          (tr (idx + 1 + i) (chainFrom resolve L (idx + 1) (resolve (L idx u) u) i)).location
            = some (L (idx + 1 + i) (chainFrom resolve L (idx + 1) (resolve (L idx u) u) i)) := by
        intro i hi
        have hidx : idx + 1 + i = idx + (i + 1) := by omega
        have hch : chainFrom resolve L (idx + 1) (resolve (L idx u) u) i
            = chainFrom resolve L idx u (i + 1) := rfl
        rw [hidx, hch]
        exact hred (i + 1) (Nat.succ_lt_succ hi)
      have hfin' : ¬ (300 ≤ (tr (idx + 1 + k')
            (chainFrom resolve L (idx + 1) (resolve (L idx u) u) k')).status ∧
          (tr (idx + 1 + k') (chainFrom resolve L (idx + 1) (resolve (L idx u) u) k')).status < 400) := by
        have hidx : idx + 1 + k' = idx + (k' + 1) := by omega
        have hch : chainFrom resolve L (idx + 1) (resolve (L idx u) u) k'
            = chainFrom resolve L idx u (k' + 1) := rfl
        rw [hidx, hch]
        exact hfin
      rw [ih f (idx + 1) (rc + 1) (resolve (L idx u) u) (trace ++ [u]) (some (tr idx u))
        (by omega) hred' hfin']
      have hidx : idx + 1 + k' = idx + (k' + 1) := by omega
      have hch : chainFrom resolve L (idx + 1) (resolve (L idx u) u) k'
          = chainFrom resolve L idx u (k' + 1) := rfl
      have hrc : rc + 1 + k' = rc + (k' + 1) := by omega
      have htrace : trace ++ [u] ++ traceFrom resolve L (idx + 1) (resolve (L idx u) u) k'
          = trace ++ traceFrom resolve L idx u (k' + 1) := by
        simp [traceFrom]
      rw [hidx, hch, hrc, htrace]

/-- C4: with a transport whose every response is a redirect carrying a
`Location`, `fetchUrl` fails with the too-many-redirects condition, the
loop performs exactly `MAX_REDIRECTS + 1` requests (the initial request
plus the `MAX_REDIRECTS = 5` allowed hops, then gives up instead of a
sixth hop), and the requested URLs are exactly the chain obtained by
resolving each `Location` against the current URL. -/
theorem C4_redirect_cap
    (resolve : String → String → String) (jsonPretty : String → Option String)
    (tr : Nat → String → Response) (L : Nat → String → String) (url : String)
    (h : ∀ i u, 300 ≤ (tr i u).status ∧ (tr i u).status < 400
          ∧ (tr i u).location = some (L i u)) :
    fetchUrl resolve jsonPretty tr url = .tooManyRedirects
    ∧ fetchTrace resolve tr url = traceFrom resolve L 0 url (MAX_REDIRECTS + 1)
    ∧ (fetchTrace resolve tr url).length = MAX_REDIRECTS + 1 := by
  have hl := fetchLoop_all_redirect resolve tr L h (MAX_REDIRECTS + 1) 0 0 url [] none
  refine ⟨?_, ?_, ?_⟩
  · unfold fetchUrl fetchLoopRun
    rw [hl]
    simp [MAX_REDIRECTS]
  · unfold fetchTrace fetchLoopRun
    rw [hl]
    simp
  · unfold fetchTrace fetchLoopRun
    rw [hl]
    simpa using traceFrom_length resolve L (MAX_REDIRECTS + 1) 0 url

/-- A resolver that ignores the base (absolute locations). -/
def wResolve : String → String → String := fun loc _ => loc

/-- A JSON pretty-printer stub: parsing always fails, so the raw text
is passed through (the JSON branch is not exercised by these claims). -/
def wJson : String → Option String := fun _ => none

/-- A transport that always answers 301 with a `Location`. -/
def c4Tr : Nat → String → Response :=
  fun _ _ => ⟨301, some "https://r.example/", none, "", ""⟩

/-- The location function of `c4Tr`. -/
def c4L : Nat → String → String := fun _ _ => "https://r.example/"

/-- C4 witness: the redirect-cap theorem applied to a concrete
always-redirecting transport. -/
theorem C4_redirect_cap_witness :
    fetchUrl wResolve wJson c4Tr "https://start.example/" = .tooManyRedirects
    ∧ (fetchTrace wResolve c4Tr "https://start.example/").length = MAX_REDIRECTS + 1 :=
  ⟨(C4_redirect_cap wResolve wJson c4Tr c4L "https://start.example/"
      (fun i u => ⟨by simp [c4Tr], by simp [c4Tr], rfl⟩)).1,
   (C4_redirect_cap wResolve wJson c4Tr c4L "https://start.example/"
      (fun i u => ⟨by simp [c4Tr], by simp [c4Tr], rfl⟩)).2.2⟩

/-- A transport answering 500 with an oversized declared length. -/
def c5Tr : Nat → String → Response :=
  fun _ _ => ⟨500, none, some (2 * MAX_FETCH_SIZE), "", ""⟩

/-- C5 counterexample: a non-2xx first response with an oversized
declared content length fails with the HTTP-status condition, not the
"response too large" condition — the `response.ok` check precedes the
size checks, so the claim's "whenever the declared content length
exceeds the size cap" is false as stated. -/
theorem C5_size_cap_counterexample :
    (c5Tr 0 "https://x.example/").contentLength.getD 0 > MAX_FETCH_SIZE
    ∧ fetchUrl wResolve wJson c5Tr "https://x.example/" = .httpError 500
    ∧ fetchUrl wResolve wJson c5Tr "https://x.example/" ≠ .tooLargeDeclared (2 * MAX_FETCH_SIZE)
    ∧ fetchUrl wResolve wJson c5Tr "https://x.example/" ≠ .tooLargeAfterDownload := by
  refine ⟨by decide, by decide, by decide, by decide⟩

/-- C5 (amended): on the first non-redirect response, *when that
response has a successful (2xx) status*: if the declared content length
exceeds `MAX_FETCH_SIZE` the fetch fails with the declared-length
"response too large" condition whatever the body is (the body is never
consulted); otherwise, if the actual body size exceeds the cap — even
with the declared length absent or below the cap — it fails with the
after-download "response too large" condition. -/
theorem C5_size_caps_amended
    (resolve : String → String → String) (jsonPretty : String → Option String)
    (tr : Nat → String → Response) (L : Nat → String → String) (url : String)
    (k : Nat) (hk : k ≤ MAX_REDIRECTS)
    (hred : ∀ i, i < k →
      300 ≤ (tr i (chainFrom resolve L 0 url i)).status ∧
      (tr i (chainFrom resolve L 0 url i)).status < 400 ∧
      (tr i (chainFrom resolve L 0 url i)).location
        = some (L i (chainFrom resolve L 0 url i)))
    (hok : 200 ≤ (tr k (chainFrom resolve L 0 url k)).status ∧
      (tr k (chainFrom resolve L 0 url k)).status < 300) :
    ((tr k (chainFrom resolve L 0 url k)).contentLength.getD 0 > MAX_FETCH_SIZE →
      fetchUrl resolve jsonPretty tr url =
        .tooLargeDeclared ((tr k (chainFrom resolve L 0 url k)).contentLength.getD 0))
    ∧ ((tr k (chainFrom resolve L 0 url k)).contentLength.getD 0 ≤ MAX_FETCH_SIZE →
      (tr k (chainFrom resolve L 0 url k)).body.length > MAX_FETCH_SIZE →
      fetchUrl resolve jsonPretty tr url = .tooLargeAfterDownload) := by
  have hfin : ¬ (300 ≤ (tr (0 + k) (chainFrom resolve L 0 url k)).status ∧
      (tr (0 + k) (chainFrom resolve L 0 url k)).status < 400) := by
    simp only [Nat.zero_add]
    intro hc
    omega
  have hred' : ∀ i, i < k →
      300 ≤ (tr (0 + i) (chainFrom resolve L 0 url i)).status ∧
      (tr (0 + i) (chainFrom resolve L 0 url i)).status < 400 ∧
      (tr (0 + i) (chainFrom resolve L 0 url i)).location
        = some (L (0 + i) (chainFrom resolve L 0 url i)) := by
    intro i hi
    simpa using hred i hi
  have hl := fetchLoop_stops resolve tr L k (MAX_REDIRECTS + 1) 0 0 url [] none
    (by omega) hred' hfin
  simp only [Nat.zero_add] at hl
  have hnm : ¬ (k > MAX_REDIRECTS) := Nat.not_lt.mpr hk
  constructor
  · intro hbig
    unfold fetchUrl fetchLoopRun
    rw [hl]
    simp only [if_neg hnm, if_neg (not_not_intro hok), if_pos hbig]
  · intro hsmall hbody
    unfold fetchUrl fetchLoopRun
    rw [hl]
    simp only [if_neg hnm, if_neg (not_not_intro hok),
      if_neg (Nat.not_lt.mpr hsmall), if_pos hbody]

/-- A 200 response declaring a length above the cap. -/
def c5bTr : Nat → String → Response :=
  fun _ _ => ⟨200, none, some (MAX_FETCH_SIZE + 1), "text/plain", "small"⟩

/-- A 200 response with no declared length but an oversized body. -/
def c5cTr : Nat → String → Response :=
  fun _ _ => ⟨200, none, none, "text/plain",
    String.mk (List.replicate (MAX_FETCH_SIZE + 1) 'a')⟩

/-- C5 witness: the amended theorem at `k = 0` for a declared-oversize
response (fails before the body matters) and for an undeclared but
actually oversized body (fails after download). -/
theorem C5_size_caps_amended_witness :
    fetchUrl wResolve wJson c5bTr "https://x.example/"
      = .tooLargeDeclared (MAX_FETCH_SIZE + 1)
    ∧ fetchUrl wResolve wJson c5cTr "https://x.example/" = .tooLargeAfterDownload := by
  constructor
  · exact (C5_size_caps_amended wResolve wJson c5bTr c4L "https://x.example/" 0
      (by decide) (fun i hi => absurd hi (by omega)) ⟨by decide, by decide⟩).1
      (by decide)
  · exact (C5_size_caps_amended wResolve wJson c5cTr c4L "https://x.example/" 0
      (by decide) (fun i hi => absurd hi (by omega)) ⟨by decide, by decide⟩).2
      (by decide)
      (by simp [c5cTr, String.length])

/-! ## Hexo front matter (`parseFrontMatter` / `buildFrontMatter` / `readPost`)

Front-matter values produced or consumed by the Hexo server are strings,
booleans or arrays of strings; a parsed metadata mapping is an ordered
association list, mirroring a JavaScript object's insertion-order
semantics (assignment to an existing key updates it in place, a new key
is appended). -/

/-- A front-matter value. -/
inductive JValue where
  | str (s : String)
  | bool (b : Bool)
  | arr (xs : List String)
deriving DecidableEq

/-- JavaScript `obj[k] = v` on an insertion-ordered object. -/
def setKey (r : List (String × JValue)) (k : String) (v : JValue) :
    List (String × JValue) :=
  if r.any (fun p => p.1 == k) then
    r.map (fun p => if p.1 == k then (k, v) else p)
  else r ++ [(k, v)]

/-- JavaScript property lookup. -/
def lookupKey (r : List (String × JValue)) (k : String) : Option JValue :=
  (r.find? (fun p => p.1 == k)).map (fun p => p.2)

/-- The separator `\r?\n---\r?\n` of the front-matter regex, tried at
the head of the text (`\r?` is greedy, so the patterns with `\r` are
tried first); returns the remainder after the separator. -/
def stripFmSep (l : List Char) : Option (List Char) :=
  if "\r\n---\r\n".data.isPrefixOf l then some (l.drop 7)
  else if "\r\n---\n".data.isPrefixOf l then some (l.drop 6)
  else if "\n---\r\n".data.isPrefixOf l then some (l.drop 6)
  else if "\n---\n".data.isPrefixOf l then some (l.drop 5)
  else none

/-- The lazy group `([\s\S]*?)` followed by the separator: split at the
*first* position where the separator matches. -/
def findFmSep : List Char → Option (List Char × List Char)
  | [] => none
  | c :: cs =>
    match stripFmSep (c :: cs) with
    | some rest => some ([], rest)
    | none =>
      match findFmSep cs with
      | some p => some (c :: p.1, p.2)
      | none => none

/-- The front-matter regex
`/^---\r?\n([\s\S]*?)\r?\n---\r?\n([\s\S]*)$/`: opening marker line,
lazily matched block, closing marker line, body.  Returns
`(yamlBlock, body)` on match. -/
def fmSplit (l : List Char) : Option (List Char × List Char) :=
  match l with
  | '-' :: '-' :: '-' :: '\r' :: '\n' :: rest => findFmSep rest
  | '-' :: '-' :: '-' :: '\n' :: rest => findFmSep rest
  | _ => none

/-- `trimmed.startsWith('  - ') || trimmed.startsWith('    - ')`. -/
def itemStart (l : List Char) : Bool :=
  "  - ".data.isPrefixOf l || "    - ".data.isPrefixOf l

/-- `replace(/^\s*-\s*/, '')`: strip leading whitespace, one dash and
the following whitespace; unchanged when the pattern does not match. -/
def stripItemDash (l : List Char) : List Char :=
  match l.dropWhile isJsSpace with
  | '-' :: rest => rest.dropWhile isJsSpace
  | _ => l

/-- `replace(/^["']|["']$/g, '')`: drop one leading and one trailing
quote character (independently; a single quote character is dropped
once). -/
def stripEndQuotes (l : List Char) : List Char :=
  match l with
  | [] => []
  | [c] => if isQuoteCh c then [] else [c]
  | _ =>
    let l1 := if isQuoteCh (l.headD ' ') then l.tail else l
    if isQuoteCh (l1.getLastD ' ') then l1.dropLast else l1

/-- The key/value regex `/^(\w[\w-]*):\s*(.*)$/` followed by
`rawValue.trim()`: the key is the maximal run of `[\w-]` starting with a
word character, followed by `:`; the value is the rest of the line after
greedy `\s*`.  (`.` does not match `\r`, so a line still holding a `\r`
after the whitespace prefix fails to match; lines here never contain
`\n`, being the result of a split on `\n`.) -/
def kvMatch (l : List Char) : Option (String × String) :=
  match l with
  | [] => none
  | c :: _ =>
    if isWordChar c then
      let run := l.takeWhile isKeyChar
      match l.drop run.length with
      | ':' :: rest =>
        let rem := rest.dropWhile isJsSpace
        if rem.contains '\r' then none
        else some (String.mk run, String.mk (jsTrim rem))
      | _ => none
    else none

/-- Parser state of the line scan: the metadata so far, the last key
seen, and the array being collected (if any). -/
structure FmState where
  meta : List (String × JValue)
  currentKey : String
  currentArray : Option (List String)

/-- Commit a pending array under the current key. -/
def commitArr (st : FmState) : FmState :=
  match st.currentArray with
  | some a => ⟨setKey st.meta st.currentKey (JValue.arr a), st.currentKey, none⟩
  | none => st

/-- One line of the front-matter scan, mirroring the source's loop body:
trim the end; an indented `- ` item extends the pending array (or is
ignored); otherwise commit any pending array, then on `key: value`
either start a new array (empty value or `[]`), store a boolean
(`true`/`false`), or store the quote-stripped string. -/
def procLine (st : FmState) (line : List Char) : FmState :=
  let trimmed := jsTrimEnd line
  if itemStart trimmed then
    match st.currentArray with
    | some a =>
      ⟨st.meta, st.currentKey,
       some (a ++ [String.mk (stripEndQuotes (stripItemDash trimmed))])⟩
    | none => st
  else
    let st1 := commitArr st
    match kvMatch trimmed with
    | some kv =>
      if kv.2 = "" ∨ kv.2 = "[]" then ⟨st1.meta, kv.1, some []⟩
      else if kv.2 = "true" then ⟨setKey st1.meta kv.1 (JValue.bool true), kv.1, none⟩
      else if kv.2 = "false" then ⟨setKey st1.meta kv.1 (JValue.bool false), kv.1, none⟩
      else ⟨setKey st1.meta kv.1 (JValue.str (String.mk (stripEndQuotes kv.2.data))),
            kv.1, none⟩
    | none => st1

/-- Result of `parseFrontMatter`. -/
structure ParsedPost where
  meta : List (String × JValue)
  body : String
deriving DecidableEq

/-- `parseFrontMatter` from the Hexo server: match the delimited block
(else empty metadata and the whole input as body), split the block into
lines on `\n`, scan them, and commit a trailing pending array. -/
def parseFrontMatter (content : String) : ParsedPost :=
  match fmSplit content.data with
  | none => ⟨[], content⟩
  | some (yaml, body) =>
    let stF := (splitOnNl yaml).foldl procLine ⟨[], "", none⟩
    ⟨(commitArr stF).meta, String.mk body⟩

/-- JavaScript `String(v)` on a front-matter value (`Array.toString` is
a comma join). -/
def joinComma : List String → String
  | [] => ""
  | [s] => s
  | s :: rest => s ++ "," ++ joinComma rest

/-- JavaScript `String(v)`. -/
def jsToString : JValue → String
  | .str s => s
  | .bool b => if b then "true" else "false"
  | .arr xs => joinComma xs

/-- `String(meta.k ?? '')`. -/
def coerceStr (v : Option JValue) : String :=
  match v with
  | none => ""
  | some v => jsToString v

/-- `Array.isArray(meta.k) ? meta.k.map(String) : []` (elements are
already strings). -/
def coerceArr (v : Option JValue) : List String :=
  match v with
  | some (.arr xs) => xs
  | _ => []

/-- The `meta` object built by `readPost`: the four coerced fields in
literal order, then the spread `...meta`, which overwrites the coerced
fields in place for keys present in the parsed mapping and appends the
rest in order. -/
def readPostMeta (content : String) : List (String × JValue) :=
  let meta := (parseFrontMatter content).meta
  let base : List (String × JValue) :=
    [("title", JValue.str (coerceStr (lookupKey meta "title"))),
     ("date", JValue.str (coerceStr (lookupKey meta "date"))),
     ("tags", JValue.arr (coerceArr (lookupKey meta "tags"))),
     ("categories", JValue.arr (coerceArr (lookupKey meta "categories")))]
  meta.foldl (fun r p => setKey r p.1 p.2) base

/-- The metadata record handed to `buildFrontMatter`: the four fixed
fields plus the extra entries in insertion order (a JavaScript object
cannot repeat keys, so the extras exclude the fixed four). -/
structure PostMeta where
  title : String
  date : String
  tags : List String
  categories : List String
  extras : List (String × JValue)

/-- The lines pushed for one extra entry of `buildFrontMatter`: an array
renders as a key line plus one `  - item` line per element, a boolean as
`key: true/false`, anything else via its string form. -/
def entryLines : String × JValue → List String
  | (k, .arr xs) => (k ++ ":") :: xs.map (fun x => "  - " ++ x)
  | (k, .bool b) => [k ++ ": " ++ (if b then "true" else "false")]
  | (k, .str s) => [k ++ ": " ++ s]

/-- The loop over the extra entries. -/
def entryLinesAll : List (String × JValue) → List String
  | [] => []
  | e :: es => entryLines e ++ entryLinesAll es

/-- `lines.join('\n')`. -/
def joinNl : List String → String
  | [] => ""
  | [s] => s
  | s :: rest => s ++ "\n" ++ joinNl rest

/-- `buildFrontMatter` from the Hexo server: marker, `title:`, `date:`,
`tags:`/`categories:` list blocks only when non-empty, the extra entries
in order, closing marker; joined with `\n` (note: no trailing newline
after the closing marker). -/
def buildFrontMatter (m : PostMeta) : String :=
  joinNl (["---", "title: " ++ m.title, "date: " ++ m.date]
    ++ (if m.tags.length > 0 then "tags:" :: m.tags.map (fun t => "  - " ++ t) else [])
    ++ (if m.categories.length > 0 then
          "categories:" :: m.categories.map (fun c => "  - " ++ c) else [])
    ++ entryLinesAll m.extras
    ++ ["---"])

/-- The mapping a faithful decode of `buildFrontMatter m` should
produce: `title`, `date`, `tags`/`categories` when non-empty, then the
extras in order. -/
def metaEntries (m : PostMeta) : List (String × JValue) :=
  [("title", JValue.str m.title), ("date", JValue.str m.date)]
    ++ (if m.tags.length > 0 then [("tags", JValue.arr m.tags)] else [])
    ++ (if m.categories.length > 0 then [("categories", JValue.arr m.categories)] else [])
    ++ m.extras

/-! ## Plain scalars and the round-trip conditions

A *plain* scalar is one the front-matter line format can carry
verbatim: non-empty, no newline or carriage return, not starting or
ending with whitespace or a quote character; a plain *value* string is
additionally none of the literals `true`/`false`/`[]` (which decode as
a boolean or an array).  Keys must match `\w[\w-]*`, avoid the four
fixed field names and be pairwise distinct (a JavaScript object cannot
repeat keys). -/

/-- Allowed at the ends of a scalar: not whitespace, not a quote. -/
def plainEdge (c : Char) : Bool := !(isJsSpace c || isQuoteCh c)

/-- Allowed anywhere in a scalar: not a line terminator. -/
def plainBody (c : Char) : Bool := !(c = '\n' || c = '\r')

/-- A plain sequence item. -/
def plainItem (s : String) : Bool :=
  match s.data with
  | [] => false
  | c :: cs => plainEdge c && plainEdge ((c :: cs).getLastD ' ')
      && (c :: cs).all plainBody

/-- A plain scalar value (also avoids the specially decoded literals). -/
def plainScalar (s : String) : Bool :=
  plainItem s && !(s == "true" || s == "false" || s == "[]")

/-- A well-formed front-matter key (`\w[\w-]*`). -/
def plainKey (s : String) : Bool :=
  match s.data with
  | [] => false
  | c :: cs => isWordChar c && cs.all isKeyChar

/-- The four fixed fields. -/
def fixedKey (s : String) : Bool :=
  s == "title" || s == "date" || s == "tags" || s == "categories"

/-- A plain extra value. -/
def plainValue : JValue → Bool
  | .str s => plainScalar s
  | .bool _ => true
  | .arr xs => xs.all plainItem

/-- A plain entry. -/
def plainEntry (p : String × JValue) : Bool := plainKey p.1 && plainValue p.2

/-- Pairwise-distinct keys. -/
def freshKeys : List (String × JValue) → Bool
  | [] => true
  | e :: es => !(es.any (fun p => p.1 == e.1)) && freshKeys es

/-- All round-trip conditions on a metadata value. -/
def plainMeta (m : PostMeta) : Bool :=
  plainScalar m.title && plainScalar m.date
    && m.tags.all plainItem && m.categories.all plainItem
    && m.extras.all (fun p => plainKey p.1 && !fixedKey p.1 && plainValue p.2)
    && freshKeys m.extras

/-! ### Helper lemmas on characters and lists -/

theorem getLastD_irrel (c : Char) (cs : List Char) (d d' : Char) :
    (c :: cs).getLastD d = (c :: cs).getLastD d' := by
  rw [List.getLastD_cons, List.getLastD_cons]

theorem getLastD_append (ys : List Char) (h : ys ≠ []) :
    ∀ (xs : List Char) (d : Char), (xs ++ ys).getLastD d = ys.getLastD d := by
  intro xs
  induction xs with
  | nil => intro d; rfl
  | cons x xt ih =>
    intro d
    show (x :: (xt ++ ys)).getLastD d = ys.getLastD d
    rw [List.getLastD_cons, ih x]
    cases ys with
    | nil => exact absurd rfl h
    | cons z zs => exact getLastD_irrel z zs x d

theorem jsTrimEnd_eq_self {l : List Char} (h : isJsSpace (l.getLastD 'x') = false) :
    jsTrimEnd l = l := by
  unfold jsTrimEnd
  cases hr : l.reverse with
  | nil =>
    have : l = [] := by simpa using congrArg List.reverse hr
    simp [this]
  | cons c t =>
    have hl : l = t.reverse ++ [c] := by
      have := congrArg List.reverse hr
      simpa using this
    have hc : l.getLastD 'x' = c := by
      rw [hl, getLastD_append [c] (by simp) t.reverse 'x']
      rfl
    rw [hc] at h
    rw [List.dropWhile_cons, h]
    simp [← hr]

theorem dropWhile_eq_self_of_head {l : List Char} {p : Char → Bool}
    (h : ∀ c, l.headD 'x' = c → p c = false) :
    l.dropWhile p = l := by
  cases l with
  | nil => rfl
  | cons c t =>
    simp [List.dropWhile_cons, h c rfl]

theorem stripEndQuotes_eq_self {l : List Char}
    (h1 : isQuoteCh (l.headD 'x') = false)
    (h2 : isQuoteCh (l.getLastD 'x') = false) :
    stripEndQuotes l = l := by
  match l with
  | [] => rfl
  | [c] =>
    simp only [List.headD] at h1
    simp [stripEndQuotes, h1]
  | a :: b :: t =>
    simp only [List.headD] at h1
    have h2x : isQuoteCh ((b :: t).getLast?.getD a) = false := by
      rw [← List.getLastD_eq_getLast? a (b :: t), ← List.getLastD_cons 'x' a (b :: t)]
      exact h2
    simp [stripEndQuotes, h1]
    intro hq
    exfalso
    cases hgl : (b :: t).getLast? with
    | none => simp at hgl
    | some z =>
      rw [hgl] at hq h2x
      simp only [Option.getD_some] at hq h2x
      simp [h2x] at hq

theorem takeWhile_run {p : Char → Bool} :
    ∀ (xs : List Char) (y : Char) (t : List Char), xs.all p = true → p y = false →
      (xs ++ y :: t).takeWhile p = xs ∧ (xs ++ y :: t).dropWhile p = y :: t := by
  intro xs
  induction xs with
  | nil =>
    intro y t _ hy
    constructor
    · simp [List.takeWhile_cons, hy]
    · simp [List.dropWhile_cons, hy]
  | cons x xt ih =>
    intro y t hall hy
    have hx : p x = true := by
      have := List.all_eq_true.mp hall
      simpa using this x (by simp)
    have hxt : xt.all p = true := by
      rw [List.all_eq_true] at hall ⊢
      intro a ha
      exact hall a (by simp [ha])
    obtain ⟨ht, hd⟩ := ih y t hxt hy
    constructor
    · simp [List.takeWhile_cons, hx, ht]
    · simp [List.dropWhile_cons, hx, hd]

theorem contains_false_of_all {l : List Char} {c : Char}
    (h : ∀ x ∈ l, x ≠ c) : l.contains c = false := by
  induction l with
  | nil => rfl
  | cons a t ih =>
    have ha : (c == a) = false := beq_eq_false_iff_ne.mpr (Ne.symm (h a (by simp)))
    have ht := ih (fun x hx => h x (by simp [hx]))
    simp only [List.contains_cons, ha, Bool.false_or]
    exact ht

theorem isWordChar_props {c : Char} (h : isWordChar c = true) :
    c ≠ ' ' ∧ c ≠ '-' ∧ c ≠ '\n' ∧ c ≠ '\r' ∧ c ≠ ':' := by
  refine ⟨?_, ?_, ?_, ?_, ?_⟩ <;> (intro he; subst he; exact absurd h (by decide))

theorem isKeyChar_props {c : Char} (h : isKeyChar c = true) :
    c ≠ ':' ∧ c ≠ '\n' ∧ c ≠ '\r' := by
  refine ⟨?_, ?_, ?_⟩ <;> (intro he; subst he; exact absurd h (by decide))

theorem plainEdge_props {c : Char} (h : plainEdge c = true) :
    isJsSpace c = false ∧ isQuoteCh c = false := by
  constructor <;> (cases hb : isJsSpace c <;> cases hq : isQuoteCh c <;>
    simp [plainEdge, hb, hq] at h ⊢)

theorem plainBody_props {c : Char} (h : plainBody c = true) :
    c ≠ '\n' ∧ c ≠ '\r' := by
  refine ⟨?_, ?_⟩ <;> (intro he; subst he; exact absurd h (by decide))

theorem plainKey_parts {s : String} (h : plainKey s = true) :
    ∃ c cs, s.data = c :: cs ∧ isWordChar c = true ∧ cs.all isKeyChar = true := by
  unfold plainKey at h
  cases hd : s.data with
  | nil => rw [hd] at h; exact absurd h (by simp)
  | cons c cs =>
    rw [hd] at h
    exact ⟨c, cs, rfl, (Bool.and_eq_true_iff.mp h).1, (Bool.and_eq_true_iff.mp h).2⟩

theorem plainItem_parts {s : String} (h : plainItem s = true) :
    s.data ≠ []
    ∧ plainEdge (s.data.headD 'x') = true
    ∧ plainEdge (s.data.getLastD 'x') = true
    ∧ ∀ c ∈ s.data, plainBody c = true := by
  unfold plainItem at h
  cases hd : s.data with
  | nil => rw [hd] at h; exact absurd h (by simp)
  | cons c cs =>
    rw [hd] at h
    have h' : plainEdge c = true ∧ plainEdge ((c :: cs).getLast?.getD ' ') = true
        ∧ plainBody c = true ∧ ∀ x ∈ cs, plainBody x = true := by
      simpa [Bool.and_assoc] using h
    obtain ⟨h1, h2, h3, h4⟩ := h'
    refine ⟨by simp, by simpa using h1, ?_, ?_⟩
    · rw [List.getLastD_eq_getLast? 'x' (c :: cs)]
      cases hgl : (c :: cs).getLast? with
      | none => simp at hgl
      | some z =>
        rw [hgl] at h2
        simpa using h2
    · intro x hx
      rcases List.mem_cons.mp hx with rfl | hx'
      · exact h3
      · exact h4 x hx'

theorem plainScalar_parts {s : String} (h : plainScalar s = true) :
    plainItem s = true ∧ s ≠ "" ∧ s ≠ "true" ∧ s ≠ "false" ∧ s ≠ "[]" := by
  obtain ⟨h1, h2⟩ := Bool.and_eq_true_iff.mp h
  have hne : s ≠ "" := by
    intro he
    subst he
    exact absurd h1 (by decide)
  refine ⟨h1, hne, ?_, ?_, ?_⟩ <;>
    (intro he; subst he; simp at h2)

/-- Evaluation of `jsTrim` on a plain item's characters. -/
theorem jsTrim_plain {s : String} (h : plainItem s = true) :
    jsTrim s.data = s.data := by
  obtain ⟨_, hh, hl, _⟩ := plainItem_parts h
  unfold jsTrim
  rw [jsTrimEnd_eq_self (plainEdge_props hl).1]
  exact dropWhile_eq_self_of_head (fun c hc => hc ▸ (plainEdge_props hh).1)

/-- Evaluation of `stripEndQuotes` on a plain item's characters. -/
theorem stripEndQuotes_plain {s : String} (h : plainItem s = true) :
    stripEndQuotes s.data = s.data := by
  obtain ⟨_, hh, hl, _⟩ := plainItem_parts h
  exact stripEndQuotes_eq_self (plainEdge_props hh).2 (plainEdge_props hl).2

/-- Evaluation of the key/value regex on a generated `key: value` line. -/
theorem kvMatch_build (k v : String) (hk : plainKey k = true) (hv : plainItem v = true) :
    kvMatch (k ++ ": " ++ v).data = some (k, v) := by
  obtain ⟨c, cs, hkd, hw, hcs⟩ := plainKey_parts hk
  obtain ⟨hvne, hvh, hvl, hvb⟩ := plainItem_parts hv
  have hdata : (k ++ ": " ++ v).data = (c :: cs) ++ ':' :: ' ' :: v.data := by
    rw [String.data_append, String.data_append, hkd]
    simp
  rw [hdata]
  have hall : (c :: cs).all isKeyChar = true := by
    simp only [List.all_cons, Bool.and_eq_true_iff]
    exact ⟨by simp [isKeyChar, hw], hcs⟩
  obtain ⟨htake, _⟩ := takeWhile_run (c :: cs) ':' (' ' :: v.data) hall (by decide)
  have hstep : (c :: cs) ++ ':' :: ' ' :: v.data = c :: (cs ++ ':' :: ' ' :: v.data) := rfl
  simp only [hstep, kvMatch, hw, if_true]
  rw [← hstep, htake]
  have hdrop : ((c :: cs) ++ ':' :: ' ' :: v.data).drop (c :: cs).length
      = ':' :: ' ' :: v.data := List.drop_left (c :: cs) (':' :: ' ' :: v.data)
  rw [hdrop]
  have hrem : (' ' :: v.data).dropWhile isJsSpace = v.data := by
    rw [List.dropWhile_cons]
    simp only [if_pos (by decide : isJsSpace ' ' = true)]
    exact dropWhile_eq_self_of_head (fun x hx => hx ▸ (plainEdge_props hvh).1)
  have hcr : v.data.contains '\r' = false :=
    contains_false_of_all (fun x hx => (plainBody_props (hvb x hx)).2)
  simp only [hrem, hcr, Bool.false_eq_true, if_false, jsTrim_plain hv]
  rw [← hkd]

theorem itemStart_false {c : Char} (t : List Char) (h : c ≠ ' ') :
    itemStart (c :: t) = false := by
  have hp2 : "  - ".data = [' ', ' ', '-', ' '] := rfl
  have hp4 : "    - ".data = [' ', ' ', ' ', ' ', '-', ' '] := rfl
  have hbe : (' ' == c) = false := beq_eq_false_iff_ne.mpr (Ne.symm h)
  simp [itemStart, hp2, hp4, List.isPrefixOf, hbe]

theorem kvMatch_keyOnly (k : String) (hk : plainKey k = true) :
    kvMatch (k ++ ":").data = some (k, "") := by
  obtain ⟨c, cs, hkd, hw, hcs⟩ := plainKey_parts hk
  have hdata : (k ++ ":").data = (c :: cs) ++ [':'] := by
    rw [String.data_append, hkd]
  rw [hdata]
  have hall : (c :: cs).all isKeyChar = true := by
    simp only [List.all_cons, Bool.and_eq_true_iff]
    exact ⟨by simp [isKeyChar, hw], hcs⟩
  obtain ⟨htake, _⟩ := takeWhile_run (c :: cs) ':' [] hall (by decide)
  have hstep : (c :: cs) ++ [':'] = c :: (cs ++ [':']) := rfl
  simp only [hstep, kvMatch, hw, if_true]
  rw [← hstep]
  have htake' : ((c :: cs) ++ [':']).takeWhile isKeyChar = c :: cs := htake
  rw [htake']
  have hdrop : ((c :: cs) ++ [':']).drop (c :: cs).length = [':'] :=
    List.drop_left (c :: cs) [':']
  rw [hdrop]
  simp only [List.dropWhile_nil, List.contains_nil, Bool.false_eq_true, if_false]
  rw [← hkd]
  rfl

/-- A generated `key: value` line processed by the scan: any pending
array is committed, the string value is stored under the key. -/
theorem procLine_str (st : FmState) (k v : String)
    (hk : plainKey k = true) (hv : plainScalar v = true) :
    procLine st (k ++ ": " ++ v).data
      = ⟨setKey (commitArr st).meta k (JValue.str v), k, none⟩ := by
  obtain ⟨hvi, hvne, hvt, hvf, hvbr⟩ := plainScalar_parts hv
  obtain ⟨c, cs, hkd, hw, hcs⟩ := plainKey_parts hk
  obtain ⟨hvdne, hvh, hvl, hvb⟩ := plainItem_parts hvi
  have hdata : (k ++ ": " ++ v).data = (c :: cs) ++ ':' :: ' ' :: v.data := by
    rw [String.data_append, String.data_append, hkd]
    simp
  have hlineLast : ((c :: cs) ++ ':' :: ' ' :: v.data).getLastD 'x' = v.data.getLastD 'x' := by
    rw [getLastD_append (':' :: ' ' :: v.data) (by simp) (c :: cs) 'x']
    have hsp : (':' :: ' ' :: v.data) = [':', ' '] ++ v.data := rfl
    rw [hsp, getLastD_append v.data hvdne [':', ' '] 'x']
  have htrim : jsTrimEnd ((c :: cs) ++ ':' :: ' ' :: v.data)
      = (c :: cs) ++ ':' :: ' ' :: v.data := by
    apply jsTrimEnd_eq_self
    rw [hlineLast]
    exact (plainEdge_props hvl).1
  have hitem : itemStart ((c :: cs) ++ ':' :: ' ' :: v.data) = false := by
    have hstep : (c :: cs) ++ ':' :: ' ' :: v.data = c :: (cs ++ ':' :: ' ' :: v.data) := rfl
    rw [hstep]
    exact itemStart_false _ (isWordChar_props hw).1
  have hkv : kvMatch ((c :: cs) ++ ':' :: ' ' :: v.data) = some (k, v) := by
    rw [← hdata]
    exact kvMatch_build k v hk hvi
  rw [hdata]
  simp only [procLine, htrim, hitem, Bool.false_eq_true, if_false, hkv]
  rw [if_neg ?hne]
  case hne =>
    rintro (he | he) <;> simp_all
  rw [if_neg hvt, if_neg hvf, stripEndQuotes_plain hvi]

/-- A generated `key:` line (array opener). -/
theorem procLine_keyOnly (st : FmState) (k : String) (hk : plainKey k = true) :
    procLine st (k ++ ":").data = ⟨(commitArr st).meta, k, some []⟩ := by
  obtain ⟨c, cs, hkd, hw, hcs⟩ := plainKey_parts hk
  have hdata : (k ++ ":").data = (c :: cs) ++ [':'] := by
    rw [String.data_append, hkd]
  have htrim : jsTrimEnd ((c :: cs) ++ [':']) = (c :: cs) ++ [':'] := by
    apply jsTrimEnd_eq_self
    rw [getLastD_append [':'] (by simp) (c :: cs) 'x']
    decide
  have hitem : itemStart ((c :: cs) ++ [':']) = false := by
    have hstep : (c :: cs) ++ [':'] = c :: (cs ++ [':']) := rfl
    rw [hstep]
    exact itemStart_false _ (isWordChar_props hw).1
  have hkv : kvMatch ((c :: cs) ++ [':']) = some (k, "") := by
    rw [← hdata]
    exact kvMatch_keyOnly k hk
  rw [hdata]
  simp only [procLine, htrim, hitem, Bool.false_eq_true, if_false, hkv]
  simp

/-- A generated `key: true` / `key: false` line. -/
theorem procLine_bool (st : FmState) (k : String) (b : Bool) (hk : plainKey k = true) :
    procLine st (k ++ ": " ++ (if b then "true" else "false")).data
      = ⟨setKey (commitArr st).meta k (JValue.bool b), k, none⟩ := by
  cases b with
  | true =>
    obtain ⟨hvi, _, _, _⟩ := plainItem_parts (show plainItem "true" = true by decide)
    obtain ⟨c, cs, hkd, hw, hcs⟩ := plainKey_parts hk
    have hdata : (k ++ ": " ++ "true").data = (c :: cs) ++ ':' :: ' ' :: "true".data := by
      rw [String.data_append, String.data_append, hkd]
      simp
    have htrim : jsTrimEnd ((c :: cs) ++ ':' :: ' ' :: "true".data)
        = (c :: cs) ++ ':' :: ' ' :: "true".data := by
      apply jsTrimEnd_eq_self
      rw [getLastD_append (':' :: ' ' :: "true".data) (by simp) (c :: cs) 'x']
      decide
    have hitem : itemStart ((c :: cs) ++ ':' :: ' ' :: "true".data) = false := by
      have hstep : (c :: cs) ++ ':' :: ' ' :: "true".data
          = c :: (cs ++ ':' :: ' ' :: "true".data) := rfl
      rw [hstep]
      exact itemStart_false _ (isWordChar_props hw).1
    have hkv : kvMatch ((c :: cs) ++ ':' :: ' ' :: "true".data) = some (k, "true") := by
      rw [← hdata]
      exact kvMatch_build k "true" hk (by decide)
    simp only [if_true]
    rw [hdata]
    simp only [procLine, htrim, hitem, Bool.false_eq_true, if_false, hkv]
    simp
  | false =>
    obtain ⟨c, cs, hkd, hw, hcs⟩ := plainKey_parts hk
    have hdata : (k ++ ": " ++ "false").data = (c :: cs) ++ ':' :: ' ' :: "false".data := by
      rw [String.data_append, String.data_append, hkd]
      simp
    have htrim : jsTrimEnd ((c :: cs) ++ ':' :: ' ' :: "false".data)
        = (c :: cs) ++ ':' :: ' ' :: "false".data := by
      apply jsTrimEnd_eq_self
      rw [getLastD_append (':' :: ' ' :: "false".data) (by simp) (c :: cs) 'x']
      decide
    have hitem : itemStart ((c :: cs) ++ ':' :: ' ' :: "false".data) = false := by
      have hstep : (c :: cs) ++ ':' :: ' ' :: "false".data
          = c :: (cs ++ ':' :: ' ' :: "false".data) := rfl
      rw [hstep]
      exact itemStart_false _ (isWordChar_props hw).1
    have hkv : kvMatch ((c :: cs) ++ ':' :: ' ' :: "false".data) = some (k, "false") := by
      rw [← hdata]
      exact kvMatch_build k "false" hk (by decide)
    simp only [Bool.false_eq_true, if_false]
    rw [hdata]
    simp only [procLine, htrim, hitem, Bool.false_eq_true, if_false, hkv]
    simp

/-- A generated `  - item` line while collecting an array. -/
theorem procLine_item (meta : List (String × JValue)) (key : String)
    (a : List String) (x : String) (hx : plainItem x = true) :
    procLine ⟨meta, key, some a⟩ ("  - " ++ x).data
      = ⟨meta, key, some (a ++ [x])⟩ := by
  obtain ⟨hxne, hxh, hxl, hxb⟩ := plainItem_parts hx
  have hdata : ("  - " ++ x).data = [' ', ' ', '-', ' '] ++ x.data := by
    rw [String.data_append]
  have htrim : jsTrimEnd ([' ', ' ', '-', ' '] ++ x.data)
      = [' ', ' ', '-', ' '] ++ x.data := by
    apply jsTrimEnd_eq_self
    rw [getLastD_append x.data hxne [' ', ' ', '-', ' '] 'x']
    exact (plainEdge_props hxl).1
  have hitem : itemStart ([' ', ' ', '-', ' '] ++ x.data) = true := by
    have hp2 : "  - ".data = [' ', ' ', '-', ' '] := rfl
    simp [itemStart, hp2, List.isPrefixOf]
  have hstrip : stripItemDash ([' ', ' ', '-', ' '] ++ x.data) = x.data := by
    unfold stripItemDash
    have hd1 : ([' ', ' ', '-', ' '] ++ x.data).dropWhile isJsSpace
        = '-' :: (' ' :: x.data) := by
      have hstep : [' ', ' ', '-', ' '] ++ x.data = ' ' :: ' ' :: '-' :: ' ' :: x.data := rfl
      rw [hstep, List.dropWhile_cons, List.dropWhile_cons]
      simp only [if_pos (by decide : isJsSpace ' ' = true)]
      rw [List.dropWhile_cons]
      simp only [if_neg (by decide : ¬ (isJsSpace '-' = true))]
    rw [hd1]
    show (' ' :: x.data).dropWhile isJsSpace = x.data
    rw [List.dropWhile_cons]
    simp only [if_pos (by decide : isJsSpace ' ' = true)]
    exact dropWhile_eq_self_of_head (fun y hy => hy ▸ (plainEdge_props hxh).1)
  rw [hdata]
  simp only [procLine, htrim, hitem, if_true, hstrip, stripEndQuotes_plain hx]

/-- Folding the item lines of an array block. -/
theorem foldl_items (meta : List (String × JValue)) (key : String) :
    ∀ (xs : List String) (a : List String), xs.all plainItem = true →
      ((xs.map (fun x => "  - " ++ x)).map String.data).foldl procLine ⟨meta, key, some a⟩
        = ⟨meta, key, some (a ++ xs)⟩ := by
  intro xs
  induction xs with
  | nil => intro a _; simp
  | cons x xt ih =>
    intro a hall
    have hx : plainItem x = true := by
      have := List.all_eq_true.mp hall
      simpa using this x (by simp)
    have hxt : xt.all plainItem = true := by
      rw [List.all_eq_true] at hall ⊢
      intro y hy
      exact hall y (by simp [hy])
    simp only [List.map_cons, List.foldl_cons, procLine_item meta key a x hx]
    rw [ih (a ++ [x]) hxt]
    simp

/-- `setKey`/`applyEntries`: the object updates of the scan. -/
def applyEntries (r : List (String × JValue)) (es : List (String × JValue)) :
    List (String × JValue) :=
  es.foldl (fun r p => setKey r p.1 p.2) r

/-- Folding the generated lines of a list of plain entries from any
state: each entry's lines commit the pending array and store the
entry's value; the final commit closes a trailing array block. -/
theorem foldl_entries :
    ∀ (es : List (String × JValue)) (st : FmState),
      es.all plainEntry = true →
      (commitArr (((entryLinesAll es).map String.data).foldl procLine st)).meta
        = applyEntries (commitArr st).meta es := by
  intro es
  induction es with
  | nil => intro st _; rfl
  | cons e et ih =>
    intro st hall
    have he : plainEntry e = true := by
      have := List.all_eq_true.mp hall
      simpa using this e (by simp)
    have het : et.all plainEntry = true := by
      rw [List.all_eq_true] at hall ⊢
      intro y hy
      exact hall y (by simp [hy])
    obtain ⟨hek, hev⟩ := Bool.and_eq_true_iff.mp he
    obtain ⟨k, v⟩ := e
    have hstep : entryLinesAll ((k, v) :: et) = entryLines (k, v) ++ entryLinesAll et := rfl
    rw [hstep, List.map_append, List.foldl_append]
    cases v with
    | str s =>
      simp only [entryLines, List.map_cons, List.map_nil, List.foldl_cons, List.foldl_nil]
      rw [procLine_str st k s hek (by simpa [plainValue] using hev)]
      rw [ih ⟨setKey (commitArr st).meta k (JValue.str s), k, none⟩ het]
      rfl
    | bool b =>
      simp only [entryLines, List.map_cons, List.map_nil, List.foldl_cons, List.foldl_nil]
      rw [procLine_bool st k b hek]
      rw [ih ⟨setKey (commitArr st).meta k (JValue.bool b), k, none⟩ het]
      rfl
    | arr xs =>
      simp only [entryLines, List.map_cons, List.foldl_cons]
      rw [procLine_keyOnly st k hek]
      rw [foldl_items (commitArr st).meta k xs [] (by simpa [plainValue] using hev)]
      rw [ih ⟨(commitArr st).meta, k, some ([] ++ xs)⟩ het]
      simp [commitArr, applyEntries]

theorem setKey_fresh (r : List (String × JValue)) (k : String) (v : JValue)
    (h : ∀ p ∈ r, p.1 ≠ k) : setKey r k v = r ++ [(k, v)] := by
  have hc : r.any (fun p => p.1 == k) = false := by
    rw [List.any_eq_false]
    intro p hp
    simpa using h p hp
  simp [setKey, hc]

theorem applyEntries_fresh :
    ∀ (es r : List (String × JValue)),
      (∀ p ∈ es, ∀ q ∈ r, q.1 ≠ p.1) → freshKeys es = true →
      applyEntries r es = r ++ es := by
  intro es
  induction es with
  | nil => intro r _ _; simp [applyEntries]
  | cons e et ih =>
    intro r hcross hfresh
    obtain ⟨h1, h2⟩ := Bool.and_eq_true_iff.mp hfresh
    have hset : setKey r e.1 e.2 = r ++ [e] := by
      rw [setKey_fresh r e.1 e.2 (fun q hq => hcross e (by simp) q hq)]
    have hcross2 : ∀ p ∈ et, ∀ q ∈ r ++ [e], q.1 ≠ p.1 := by
      intro p hp q hq
      rcases List.mem_append.mp hq with hq' | hq'
      · exact hcross p (by simp [hp]) q hq'
      · have hq'' : q = e := by simpa using hq'
        rw [hq'']
        have h1' : et.any (fun p => p.1 == e.1) = false := by
          cases hb : et.any (fun p => p.1 == e.1) with
          | false => rfl
          | true => rw [hb] at h1; exact absurd h1 (by simp)
        have hno := List.any_eq_false.mp h1' p hp
        intro he
        exact hno (by simp [he])
    show applyEntries (setKey r e.1 e.2) et = r ++ e :: et
    rw [hset, ih (r ++ [e]) hcross2 h2]
    simp

theorem entras_any_fixed_false {es : List (String × JValue)}
    (h : ∀ p ∈ es, fixedKey p.1 = false) (s : String) (hs : fixedKey s = true) :
    es.any (fun p => p.1 == s) = false := by
  rw [List.any_eq_false]
  intro p hp hbe
  have he : p.1 = s := by simpa using hbe
  rw [← he] at hs
  rw [h p hp] at hs
  exact Bool.noConfusion hs

/-- Distribution of the extras loop over appends. -/
theorem entryLinesAll_append : ∀ (a b : List (String × JValue)),
    entryLinesAll (a ++ b) = entryLinesAll a ++ entryLinesAll b := by
  intro a
  induction a with
  | nil => intro b; rfl
  | cons e t ih =>
    intro b
    show entryLines e ++ entryLinesAll (t ++ b) = (entryLines e ++ entryLinesAll t) ++ _
    rw [ih b, List.append_assoc]

theorem joinNl_data (ls : List String) :
    (joinNl ls).data = joinNlCh (ls.map String.data) := by
  induction ls with
  | nil => rfl
  | cons s t ih =>
    cases t with
    | nil => rfl
    | cons s' ls' =>
      show (s ++ "\n" ++ joinNl (s' :: ls')).data
          = joinNlCh (s.data :: (s' :: ls').map String.data)
      rw [String.data_append, String.data_append, ih]
      simp [joinNlCh]

theorem joinNlCh_cons (x : List Char) (ls : List (List Char)) (h : ls ≠ []) :
    joinNlCh (x :: ls) = x ++ '\n' :: joinNlCh ls := by
  cases ls with
  | nil => exact absurd rfl h
  | cons y t => rfl

theorem joinNlCh_append_single (x : List Char) :
    ∀ ls : List (List Char), ls ≠ [] →
      joinNlCh (ls ++ [x]) = joinNlCh ls ++ '\n' :: x := by
  intro ls
  induction ls with
  | nil => intro h; exact absurd rfl h
  | cons y t ih =>
    intro _
    cases t with
    | nil => rfl
    | cons z t' =>
      have hs : (y :: z :: t') ++ [x] = y :: ((z :: t') ++ [x]) := rfl
      rw [hs, joinNlCh_cons y ((z :: t') ++ [x]) (by simp),
        joinNlCh_cons y (z :: t') (by simp), ih (by simp)]
      simp

theorem splitOnNl_no_nl (l : List Char) (h : ∀ c ∈ l, c ≠ '\n') :
    splitOnNl l = [l] := by
  induction l with
  | nil => rfl
  | cons c t ih =>
    have hc : c ≠ '\n' := h c (by simp)
    simp [splitOnNl, hc, ih (fun x hx => h x (by simp [hx]))]

theorem splitOnNl_line_append (r : List Char) :
    ∀ l : List Char, (∀ c ∈ l, c ≠ '\n') →
      splitOnNl (l ++ '\n' :: r) = l :: splitOnNl r := by
  intro l
  induction l with
  | nil => intro _; simp [splitOnNl]
  | cons c t ih =>
    intro h
    have hc : c ≠ '\n' := h c (by simp)
    have ih' := ih (fun x hx => h x (by simp [hx]))
    show splitOnNl (c :: (t ++ '\n' :: r)) = (c :: t) :: splitOnNl r
    simp [splitOnNl, hc, ih']

theorem splitOnNl_joinNlCh : ∀ ls : List (List Char), ls ≠ [] →
    (∀ l ∈ ls, ∀ c ∈ l, c ≠ '\n') → splitOnNl (joinNlCh ls) = ls := by
  intro ls
  induction ls with
  | nil => intro h _; exact absurd rfl h
  | cons x t ih =>
    intro _ hnl
    cases t with
    | nil => exact splitOnNl_no_nl x (hnl x (by simp))
    | cons y t' =>
      rw [joinNlCh_cons x (y :: t') (by simp)]
      rw [splitOnNl_line_append (joinNlCh (y :: t')) x (hnl x (by simp))]
      rw [ih (by simp) (fun l hl => hnl l (by simp [hl]))]

/-- A generated yaml line is safe for the separator scan: non-empty, no
line terminators, and it does not start with `-`. -/
def GoodLineP (l : List Char) : Prop :=
  l ≠ [] ∧ (∀ c ∈ l, c ≠ '\n' ∧ c ≠ '\r') ∧ l.headD 'x' ≠ '-'

theorem sep_data_r2 : "\r\n---\r\n".data = ['\r', '\n', '-', '-', '-', '\r', '\n'] := rfl

theorem sep_data_r1 : "\r\n---\n".data = ['\r', '\n', '-', '-', '-', '\n'] := rfl

theorem sep_data_r3 : "\n---\r\n".data = ['\n', '-', '-', '-', '\r', '\n'] := rfl

theorem sep_data_plain : "\n---\n".data = ['\n', '-', '-', '-', '\n'] := rfl

theorem stripFmSep_none_of_head {c : Char} (t : List Char)
    (h1 : c ≠ '\n') (h2 : c ≠ '\r') : stripFmSep (c :: t) = none := by
  have b1 : (('\r' : Char) == c) = false := beq_eq_false_iff_ne.mpr (Ne.symm h2)
  have b2 : (('\n' : Char) == c) = false := beq_eq_false_iff_ne.mpr (Ne.symm h1)
  simp [stripFmSep, sep_data_r2, sep_data_r1, sep_data_r3, sep_data_plain,
    List.isPrefixOf, b1, b2]

theorem stripFmSep_none_nl {c : Char} (t : List Char) (h : c ≠ '-') :
    stripFmSep ('\n' :: c :: t) = none := by
  have b1 : (('-' : Char) == c) = false := beq_eq_false_iff_ne.mpr (Ne.symm h)
  simp [stripFmSep, sep_data_r2, sep_data_r1, sep_data_r3, sep_data_plain,
    List.isPrefixOf, b1]

theorem stripFmSep_end (rest : List Char) :
    stripFmSep ('\n' :: '-' :: '-' :: '-' :: '\n' :: rest) = some rest := by
  simp [stripFmSep, sep_data_r2, sep_data_r1, sep_data_r3, sep_data_plain,
    List.isPrefixOf]

theorem findFmSep_cons_none {c : Char} {t : List Char}
    (h : stripFmSep (c :: t) = none) :
    findFmSep (c :: t) = (findFmSep t).map (fun p => (c :: p.1, p.2)) := by
  simp only [findFmSep, h]
  cases findFmSep t <;> rfl

theorem findFmSep_cons_some {c : Char} {t rest : List Char}
    (h : stripFmSep (c :: t) = some rest) :
    findFmSep (c :: t) = some ([], rest) := by
  simp only [findFmSep, h]

theorem findFmSep_skip_line : ∀ (l r : List Char),
    (∀ c ∈ l, c ≠ '\n' ∧ c ≠ '\r') →
    findFmSep (l ++ r) = (findFmSep r).map (fun p => (l ++ p.1, p.2)) := by
  intro l
  induction l with
  | nil =>
    intro r _
    cases h : findFmSep r <;> simp [h]
  | cons c t ih =>
    intro r h
    have hc := h c (by simp)
    show findFmSep (c :: (t ++ r)) = _
    rw [findFmSep_cons_none (stripFmSep_none_of_head (t ++ r) hc.1 hc.2)]
    rw [ih r (fun x hx => h x (by simp [hx]))]
    cases findFmSep r <;> simp

theorem findFmSep_build : ∀ (ls : List (List Char)) (rest : List Char),
    ls ≠ [] →
    (∀ l ∈ ls, GoodLineP l) →
    findFmSep (joinNlCh ls ++ '\n' :: '-' :: '-' :: '-' :: '\n' :: rest)
      = some (joinNlCh ls, rest) := by
  intro ls
  induction ls with
  | nil => intro rest h _; exact absurd rfl h
  | cons x t ih =>
    intro rest _ hg
    obtain ⟨hxne, hxch, hxh⟩ := hg x (by simp)
    cases t with
    | nil =>
      show findFmSep (x ++ '\n' :: '-' :: '-' :: '-' :: '\n' :: rest) = some (x, rest)
      rw [findFmSep_skip_line x _ hxch]
      have hend : findFmSep ('\n' :: '-' :: '-' :: '-' :: '\n' :: rest)
          = some ([], rest) := findFmSep_cons_some (stripFmSep_end rest)
      rw [hend]
      simp
    | cons y t' =>
      rw [joinNlCh_cons x (y :: t') (by simp)]
      obtain ⟨hyne, hych, hyh⟩ := hg y (by simp [List.mem_cons])
      have hassoc : (x ++ '\n' :: joinNlCh (y :: t'))
            ++ '\n' :: '-' :: '-' :: '-' :: '\n' :: rest
          = x ++ '\n' :: (joinNlCh (y :: t')
            ++ '\n' :: '-' :: '-' :: '-' :: '\n' :: rest) := by
        simp
      rw [hassoc, findFmSep_skip_line x _ hxch]
      obtain ⟨cy, yt, hy⟩ : ∃ cy yt, y = cy :: yt := by
        cases y with
        | nil => exact absurd rfl hyne
        | cons a b => exact ⟨a, b, rfl⟩
      · have hjoin : ∃ z, joinNlCh (y :: t') = y ++ z := by
          cases t' with
          | nil => exact ⟨[], by simp [joinNlCh]⟩
          | cons w t'' => exact ⟨'\n' :: joinNlCh (w :: t''), joinNlCh_cons y (w :: t'') (by simp)⟩
        obtain ⟨z, hz⟩ := hjoin
        have hcy : cy ≠ '-' := by
          rw [hy] at hyh
          simpa using hyh
        have hstep : findFmSep ('\n' :: (joinNlCh (y :: t')
              ++ '\n' :: '-' :: '-' :: '-' :: '\n' :: rest))
            = (findFmSep (joinNlCh (y :: t')
              ++ '\n' :: '-' :: '-' :: '-' :: '\n' :: rest)).map
              (fun p => ('\n' :: p.1, p.2)) := by
          have hshape : joinNlCh (y :: t') ++ '\n' :: '-' :: '-' :: '-' :: '\n' :: rest
              = cy :: (yt ++ z ++ '\n' :: '-' :: '-' :: '-' :: '\n' :: rest) := by
            rw [hz, hy]
            simp
          rw [hshape]
          exact findFmSep_cons_none (stripFmSep_none_nl _ hcy)
        rw [hstep, ih rest (by simp) (fun l hl => hg l (by simp [hl]))]
        simp

theorem good_key_line (k : String) (hk : plainKey k = true) (suffix : List Char)
    (hs : ∀ ch ∈ suffix, ch ≠ '\n' ∧ ch ≠ '\r') :
    GoodLineP (k.data ++ suffix) := by
  obtain ⟨c, cs, hkd, hw, hcs⟩ := plainKey_parts hk
  rw [hkd]
  refine ⟨by simp, ?_, ?_⟩
  · intro ch hch
    rcases List.mem_append.mp hch with hch' | hch'
    · rcases List.mem_cons.mp hch' with rfl | hch''
      · have hp := isWordChar_props hw
        exact ⟨hp.2.2.1, hp.2.2.2.1⟩
      · have hkc := List.all_eq_true.mp hcs ch hch''
        have hp := isKeyChar_props (by simpa using hkc)
        exact ⟨hp.2.1, hp.2.2⟩
    · exact hs ch hch'
  · show ((c :: cs) ++ suffix).headD 'x' ≠ '-'
    simp only [List.cons_append, List.headD]
    exact (isWordChar_props hw).2.1

theorem good_item_line (x : String) (hx : plainItem x = true) :
    GoodLineP ("  - " ++ x).data := by
  have hdata : ("  - " ++ x).data = [' ', ' ', '-', ' '] ++ x.data := by
    rw [String.data_append]
  rw [hdata]
  obtain ⟨_, _, _, hxb⟩ := plainItem_parts hx
  refine ⟨by simp, ?_, ?_⟩
  · intro ch hch
    rcases List.mem_append.mp hch with hch' | hch'
    · have hch'' : ch = ' ' ∨ ch = ' ' ∨ ch = '-' ∨ ch = ' ' := by simpa using hch'
      rcases hch'' with rfl | rfl | rfl | rfl <;> exact ⟨by decide, by decide⟩
    · exact plainBody_props (hxb ch hch')
  · show ([' ', ' ', '-', ' '] ++ x.data).headD 'x' ≠ '-'
    simp only [List.cons_append, List.headD]
    decide

theorem entryLines_good (e : String × JValue) (he : plainEntry e = true) :
    ∀ l ∈ entryLines e, GoodLineP l.data := by
  obtain ⟨k, v⟩ := e
  obtain ⟨hk, hv⟩ := Bool.and_eq_true_iff.mp he
  cases v with
  | str s =>
    intro l hl
    have hls : l = k ++ ": " ++ s := by simpa [entryLines] using hl
    subst hls
    have hdata : (k ++ ": " ++ s).data = k.data ++ (':' :: ' ' :: s.data) := by
      rw [String.data_append, String.data_append]
      simp
    rw [hdata]
    apply good_key_line k hk
    intro ch hch
    rcases List.mem_cons.mp hch with rfl | hch'
    · exact ⟨by decide, by decide⟩
    rcases List.mem_cons.mp hch' with rfl | hch''
    · exact ⟨by decide, by decide⟩
    · obtain ⟨_, _, _, hsb⟩ :=
        plainItem_parts (plainScalar_parts (by simpa [plainValue] using hv)).1
      exact plainBody_props (hsb ch hch'')
  | bool b =>
    intro l hl
    have hls : l = k ++ ": " ++ (if b then "true" else "false") := by
      simpa [entryLines] using hl
    subst hls
    cases b with
    | true =>
      have hdata : (k ++ ": " ++ "true").data = k.data ++ (':' :: ' ' :: "true".data) := by
        rw [String.data_append, String.data_append]
        simp
      simp only [if_true]
      rw [hdata]
      apply good_key_line k hk
      intro ch hch
      have hcases : ch = ':' ∨ ch = ' ' ∨ ch = 't' ∨ ch = 'r' ∨ ch = 'u' ∨ ch = 'e' := by
        simpa using hch
      rcases hcases with rfl | rfl | rfl | rfl | rfl | rfl <;> exact ⟨by decide, by decide⟩
    | false =>
      have hdata : (k ++ ": " ++ "false").data = k.data ++ (':' :: ' ' :: "false".data) := by
        rw [String.data_append, String.data_append]
        simp
      simp only [Bool.false_eq_true, if_false]
      rw [hdata]
      apply good_key_line k hk
      intro ch hch
      have hcases : ch = ':' ∨ ch = ' ' ∨ ch = 'f' ∨ ch = 'a' ∨ ch = 'l'
          ∨ ch = 's' ∨ ch = 'e' := by
        simpa using hch
      rcases hcases with rfl | rfl | rfl | rfl | rfl | rfl | rfl <;> exact ⟨by decide, by decide⟩
  | arr xs =>
    intro l hl
    have hl' : l = k ++ ":" ∨ l ∈ xs.map (fun x => "  - " ++ x) := by
      simpa [entryLines] using hl
    rcases hl' with rfl | hl''
    · have hdata : (k ++ ":").data = k.data ++ [':'] := by
        rw [String.data_append]
      rw [hdata]
      apply good_key_line k hk
      intro ch hch
      have : ch = ':' := by simpa using hch
      subst this
      exact ⟨by decide, by decide⟩
    · obtain ⟨x, hx, rfl⟩ := List.mem_map.mp hl''
      have hxp : plainItem x = true := by
        have := (by simpa [plainValue] using hv : xs.all plainItem = true)
        exact List.all_eq_true.mp this x hx
      exact good_item_line x hxp

theorem plainMeta_parts {m : PostMeta} (hm : plainMeta m = true) :
    plainScalar m.title = true ∧ plainScalar m.date = true
    ∧ m.tags.all plainItem = true ∧ m.categories.all plainItem = true
    ∧ (∀ p ∈ m.extras, plainKey p.1 = true ∧ fixedKey p.1 = false ∧ plainValue p.2 = true)
    ∧ freshKeys m.extras = true := by
  have h' := hm
  unfold plainMeta at h'
  simp only [Bool.and_eq_true_iff] at h'
  obtain ⟨⟨⟨⟨⟨h1, h2⟩, h3⟩, h4⟩, h5⟩, h6⟩ := h'
  refine ⟨h1, h2, h3, h4, ?_, h6⟩
  intro p hp
  have hone := List.all_eq_true.mp h5 p hp
  simp only [Bool.and_eq_true_iff] at hone
  obtain ⟨⟨ha, hb⟩, hc⟩ := hone
  exact ⟨ha, by simpa using hb, hc⟩

theorem metaEntries_plain {m : PostMeta} (hm : plainMeta m = true) :
    (metaEntries m).all plainEntry = true := by
  obtain ⟨h1, h2, h3, h4, h5, _⟩ := plainMeta_parts hm
  have hex : m.extras.all plainEntry = true := by
    rw [List.all_eq_true]
    intro p hp
    obtain ⟨ha, _, hc⟩ := h5 p hp
    simp [plainEntry, ha, hc]
  by_cases ht : m.tags.length > 0 <;> by_cases hcg : m.categories.length > 0 <;>
    simp [metaEntries, ht, hcg, plainEntry, plainValue, h1, h2, h3, h4, hex,
      (by decide : plainKey "title" = true), (by decide : plainKey "date" = true),
      (by decide : plainKey "tags" = true), (by decide : plainKey "categories" = true)]

theorem freshKeys_metaEntries {m : PostMeta} (hm : plainMeta m = true) :
    freshKeys (metaEntries m) = true := by
  obtain ⟨_, _, _, _, h5, h6⟩ := plainMeta_parts hm
  have hfix : ∀ p ∈ m.extras, fixedKey p.1 = false := fun p hp => (h5 p hp).2.1
  have e1 := entras_any_fixed_false hfix "title" (by decide)
  have e2 := entras_any_fixed_false hfix "date" (by decide)
  have e3 := entras_any_fixed_false hfix "tags" (by decide)
  have e4 := entras_any_fixed_false hfix "categories" (by decide)
  by_cases ht : m.tags.length > 0 <;> by_cases hcg : m.categories.length > 0 <;>
    simp [metaEntries, ht, hcg, freshKeys, e1, e2, e3, e4, h6]

theorem buildFrontMatter_entries (m : PostMeta) :
    buildFrontMatter m = joinNl ("---" :: entryLinesAll (metaEntries m) ++ ["---"]) := by
  unfold buildFrontMatter metaEntries
  by_cases ht : m.tags.length > 0 <;> by_cases hcg : m.categories.length > 0 <;>
    simp [ht, hcg, entryLinesAll_append, entryLinesAll, entryLines]

theorem mem_entryLinesAll : ∀ {es : List (String × JValue)} {s : String},
    s ∈ entryLinesAll es → ∃ e ∈ es, s ∈ entryLines e := by
  intro es
  induction es with
  | nil => intro s h; exact absurd h (by simp [entryLinesAll])
  | cons e et ih =>
    intro s h
    rcases List.mem_append.mp (by simpa [entryLinesAll] using h) with h' | h'
    · exact ⟨e, by simp, h'⟩
    · obtain ⟨e', he', hs'⟩ := ih h'
      exact ⟨e', by simp [he'], hs'⟩

/-- C2 (code bug evaluation): in `readPost` the spread `...meta` comes
*after* the coerced defaults, so a front-matter `tags` that parses as a
scalar overrides the coerced empty sequence: for
`"---\ntags: hello\n---\nbody"` the resulting `tags` is the *string*
`"hello"`, not a sequence — contradicting the declared
`PostMeta` interface type `tags: string[]` and the claim.  Likewise a
`title:` line with empty value ends up as an (empty) sequence rather
than a string. -/
theorem C2_readPost_spread_override :
    readPostMeta "---\ntags: hello\n---\nbody"
      = [("title", JValue.str ""), ("date", JValue.str ""),
         ("tags", JValue.str "hello"), ("categories", JValue.arr [])]
    ∧ lookupKey (readPostMeta "---\ntags: hello\n---\nbody") "tags"
        = some (JValue.str "hello")
    ∧ readPostMeta "---\ntitle:\n---\nbody"
      = [("title", JValue.arr []), ("date", JValue.str ""),
         ("tags", JValue.arr []), ("categories", JValue.arr [])] := by
  refine ⟨by decide, by decide, by decide⟩

/-- C1 (amended): when the encoded block is followed by a newline and
arbitrary further text (as every writer in the source composes it,
`buildFrontMatter(meta) + "\n\n" + content + "\n"`), decoding
reproduces the metadata exactly — `title` and `date`, `tags` and
`categories` in order (present in the decoded mapping exactly when
non-empty; `readPost`'s coercion restores absent ones as empty), and
every extra field in order — provided the value is *plain*: string
values and sequence items non-empty, free of line terminators, not
beginning or ending with whitespace or quote characters, value strings
none of the literals `true`/`false`/`[]`, keys matching `\w[\w-]*`,
distinct, and distinct from the four fixed fields.  The rest of the
document is returned unchanged as the body. -/
theorem C1_roundtrip_amended (m : PostMeta) (rest : String) (hm : plainMeta m = true) :
    (parseFrontMatter (buildFrontMatter m ++ "\n" ++ rest)).meta = metaEntries m
    ∧ (parseFrontMatter (buildFrontMatter m ++ "\n" ++ rest)).body = rest := by
  have hplain : (metaEntries m).all plainEntry = true := metaEntries_plain hm
  have hgood : ∀ l ∈ (entryLinesAll (metaEntries m)).map String.data, GoodLineP l := by
    intro l hl
    obtain ⟨s, hs, rfl⟩ := List.mem_map.mp hl
    obtain ⟨e, he, hse⟩ := mem_entryLinesAll hs
    exact entryLines_good e (List.all_eq_true.mp hplain e he) s hse
  have hLne : entryLinesAll (metaEntries m) ≠ [] := by
    simp [metaEntries, entryLinesAll, entryLines]
  have hLmne : (entryLinesAll (metaEntries m)).map String.data ≠ [] := by
    simpa using hLne
  have hdata : (buildFrontMatter m ++ "\n" ++ rest).data
      = '-' :: '-' :: '-' :: '\n' ::
        (joinNlCh ((entryLinesAll (metaEntries m)).map String.data)
          ++ '\n' :: '-' :: '-' :: '-' :: '\n' :: rest.data) := by
    rw [buildFrontMatter_entries, String.data_append, String.data_append, joinNl_data]
    have hmap : (("---" :: entryLinesAll (metaEntries m) ++ ["---"])).map String.data
        = "---".data :: ((entryLinesAll (metaEntries m)).map String.data
            ++ [['-', '-', '-']]) := by
      simp
    rw [hmap]
    rw [joinNlCh_cons _ _ (by simp)]
    rw [joinNlCh_append_single ['-', '-', '-'] _ hLmne]
    simp
  have hsplit : fmSplit (buildFrontMatter m ++ "\n" ++ rest).data
      = some (joinNlCh ((entryLinesAll (metaEntries m)).map String.data), rest.data) := by
    rw [hdata]
    have hred : fmSplit ('-' :: '-' :: '-' :: '\n' ::
          (joinNlCh ((entryLinesAll (metaEntries m)).map String.data)
            ++ '\n' :: '-' :: '-' :: '-' :: '\n' :: rest.data))
        = findFmSep (joinNlCh ((entryLinesAll (metaEntries m)).map String.data)
            ++ '\n' :: '-' :: '-' :: '-' :: '\n' :: rest.data) := rfl
    rw [hred]
    exact findFmSep_build _ rest.data hLmne hgood
  have hlines : splitOnNl (joinNlCh ((entryLinesAll (metaEntries m)).map String.data))
      = (entryLinesAll (metaEntries m)).map String.data :=
    splitOnNl_joinNlCh _ hLmne (fun l hl c hc => ((hgood l hl).2.1 c hc).1)
  have hparse : parseFrontMatter (buildFrontMatter m ++ "\n" ++ rest)
      = ⟨(commitArr (((entryLinesAll (metaEntries m)).map String.data).foldl
            procLine ⟨[], "", none⟩)).meta, String.mk rest.data⟩ := by
    simp only [parseFrontMatter, hsplit, hlines]
  constructor
  · rw [hparse]
    have hfold := foldl_entries (metaEntries m) ⟨[], "", none⟩ hplain
    have happly := applyEntries_fresh (metaEntries m) []
      (fun p _ q hq => absurd hq (by simp)) (freshKeys_metaEntries hm)
    simpa [applyEntries] using hfold.trans (by simpa using happly)
  · rw [hparse]

/-- A plain metadata value exercising every field kind. -/
def c1m1 : PostMeta :=
  ⟨"My Post", "2024-01-02 03:04:05", ["a", "b"], ["c"],
   [("draft", JValue.bool true), ("summary", JValue.str "hello world"),
    ("aliases", JValue.arr ["x"]), ("emptyextra", JValue.arr [])]⟩

/-- C1 witness: the amended round trip at a concrete plain value (tags
and categories in order, boolean, string, array and empty-array
extras). -/
theorem C1_roundtrip_amended_witness :
    (parseFrontMatter (buildFrontMatter c1m1 ++ "\n" ++ "\nBody text\n")).meta
      = metaEntries c1m1
    ∧ (parseFrontMatter (buildFrontMatter c1m1 ++ "\n" ++ "\nBody text\n")).body
      = "\nBody text\n" :=
  C1_roundtrip_amended c1m1 "\nBody text\n" (by decide)

/-- A perfectly ordinary metadata value. -/
def c1m0 : PostMeta := ⟨"Hi", "2024", ["a"], [], []⟩

/-- C1 counterexample: `buildFrontMatter` emits no newline after the
closing `---`, but the front-matter regex requires `\n---\n` (or the
`\r` variants) before the body — so decoding the encoder's output
*directly* never matches the block: the metadata comes back empty even
for a plain value. -/
theorem C1_roundtrip_counterexample :
    (parseFrontMatter (buildFrontMatter c1m0)).meta = []
    ∧ metaEntries c1m0 ≠ [] := by
  exact ⟨by decide, by decide⟩

/-- C3 counterexample: the spec's example is wrong on the code.  The
numeric pass replaces `&#169;` by the literal character U+00A9 (©), so
`decodeEntities "A &amp; B &#169; C"` is not `"A & B (c) C"` (only the
*named* entity `&copy;` is rewritten to the ASCII approximation
`"(c)"`). -/
theorem C3_decodeEntities_counterexample :
    decodeEntities "A &amp; B &#169; C" ≠ "A & B (c) C" := by decide

/-- C3 (amended): `decodeEntities "A &amp; B &#169; C"` returns
`"A & B © C"` (with the literal copyright character); each of the eleven
named entities decodes to its replacement (literal characters for
`&amp; &lt; &gt; &quot; &#39; &nbsp;`, ASCII approximations for
`&mdash; &ndash; &hellip; &copy; &reg;`); numeric references `&#NNN;`
decode to the character with that code; and text containing none of the
recognized patterns — in particular unrecognized named entities — is
returned unchanged. -/
theorem C3_decodeEntities_amended :
    (decodeEntities "A &amp; B &#169; C" = "A & B " ++ String.mk [Char.ofNat 169] ++ " C"
      ∧ decodeEntities "&#65;" = "A")
    ∧ (decodeEntities "&amp;" = "&" ∧ decodeEntities "&lt;" = "<"
      ∧ decodeEntities "&gt;" = ">" ∧ decodeEntities "&quot;" = String.mk [dquote]
      ∧ decodeEntities "&#39;" = String.mk [squote] ∧ decodeEntities "&nbsp;" = " "
      ∧ decodeEntities "&mdash;" = "---" ∧ decodeEntities "&ndash;" = "--"
      ∧ decodeEntities "&hellip;" = "..." ∧ decodeEntities "&copy;" = "(c)"
      ∧ decodeEntities "&reg;" = "(R)")
    ∧ (∀ s : String, entityFree s = true → decodeEntities s = s) := by
  refine ⟨⟨by decide, by decide⟩, ⟨?_, ?_, ?_, ?_, ?_, ?_, ?_, ?_, ?_, ?_, ?_⟩, ?_⟩
  · decide
  · decide
  · decide
  · decide
  · decide
  · decide
  · decide
  · decide
  · decide
  · decide
  · decide
  · intro s h
    exact decodeEntities_id h

/-- C3 witness: the unrecognized named entity `&foo;` is left unchanged,
by the amended theorem applied at `"x &foo; y"`. -/
theorem C3_decodeEntities_amended_witness :
    decodeEntities "x &foo; y" = "x &foo; y" :=
  C3_decodeEntities_amended.2.2 "x &foo; y" (by decide)

/-- C10: the replacement passes run over the whole text in order with
`&amp;` first, so ampersand-escaped entity references are decoded twice:
`decodeEntities "&amp;lt;"` yields `"<"`, not `"&lt;"`. -/
theorem C10_decodeEntities_double_decode :
    decodeEntities "&amp;lt;" = "<" ∧ decodeEntities "&amp;lt;" ≠ "&lt;" := by
  exact ⟨by decide, by decide⟩

/-- C6: for every page and maximum, `parseDDGHtml` returns at most
`min(max, number of link matches)` results; and on a page with 3 link
matches and 2 snippet matches with `max = 10` it returns exactly 3
results, pairing links and snippets by index, the third with an empty
snippet. -/
theorem C6_parseDDGHtml_pairing :
    (∀ (html : String) (max : Nat),
        (parseDDGHtml html max).length ≤ Nat.min max (resultLinkMatches html.data).length)
    ∧ parseDDGHtml c6Html 10 =
        [⟨"First", "https://one.example/", "Snippet one"⟩,
         ⟨"Second", "https://two.example/", "Snippet two"⟩,
         ⟨"Third", "https://three.example/", ""⟩] := by
  constructor
  · intro html max
    have h1 : (extractLinks html.data).length ≤ (resultLinkMatches html.data).length :=
      List.length_filterMap_le _ _
    simp only [parseDDGHtml, List.length_map, List.length_range]
    refine Nat.le_min.mpr ⟨Nat.min_le_right _ _, le_trans (Nat.min_le_left _ _) h1⟩
  · decide

/-- A link whose inner text holds a numeric character reference. -/
def c8Html : String := ddgLink "https://c.example/" "A &#169; B"

/-- Two links: the first's inner text strips to empty (discarded), the
second exercises tag stripping and the six decoded entities plus an
untouched numeric reference. -/
def c8bHtml : String :=
  ddgLink "https://x.example/" "<i> </i>"
    ++ ddgLink "https://s.example/" "<b>A</b> &amp; &lt;ok&gt; &#169;"

/-- C8 counterexample: the extractor's `stripHtml` decodes only the six
entities `&amp; &lt; &gt; &quot; &#39; &nbsp;`, not the EntityDecoder's
full set: a title holding `&#169;` keeps it verbatim, whereas
`decodeEntities` (the EntityDecoder the claim appeals to) would have
produced the literal character U+00A9. -/
theorem C8_extractor_decoding_counterexample :
    parseDDGHtml c8Html 10 = [⟨"A &#169; B", "https://c.example/", ""⟩]
    ∧ decodeEntities "A &#169; B" = "A " ++ String.mk [Char.ofNat 169] ++ " B"
    ∧ ("A &#169; B" : String) ≠ "A " ++ String.mk [Char.ofNat 169] ++ " B" := by
  refine ⟨by decide, by decide, by decide⟩

/-- C8 (amended): extracted titles/snippets are the anchors' inner text
with all tags stripped and only the six entities
`&amp; &lt; &gt; &quot; &#39; &nbsp;` decoded (numeric references and
the typographic entities are left verbatim), whitespace collapsed and
trimmed; every returned result has a non-empty url and title (pairs
empty after stripping are discarded). -/
theorem C8_extractor_amended :
    (∀ (html : String) (max : Nat), ∀ r ∈ parseDDGHtml html max,
        r.title ≠ "" ∧ r.url ≠ "")
    ∧ parseDDGHtml c8bHtml 10 = [⟨"A & <ok> &#169;", "https://s.example/", ""⟩] := by
  constructor
  · intro html max r hr
    simp only [parseDDGHtml, List.mem_map, List.mem_range] at hr
    obtain ⟨i, hi, rfl⟩ := hr
    have hlen : i < (extractLinks html.data).length := lt_of_lt_of_le hi (Nat.min_le_left _ _)
    have hmem : (extractLinks html.data).getD i ("", "") ∈ extractLinks html.data := by
      rw [List.getD_eq_getElem?_getD, List.getElem?_eq_getElem hlen]
      exact List.getElem_mem hlen
    obtain ⟨m, hml, hm⟩ := List.mem_filterMap.mp hmem
    simp only [linkEntry] at hm
    split at hm
    · exact Option.noConfusion hm
    · rename_i hcond
      have hpair := Option.some.inj hm
      have hurl : jsTrim ((findHrefCap m.1).getD []) ≠ [] := by
        intro h0
        exact hcond (by simp [h0])
      have htitle : jsTrim (stripHtml m.2) ≠ [] := by
        intro h0
        exact hcond (by simp [h0])
      constructor
      · show ((extractLinks html.data).getD i ("", "")).2 ≠ ""
        rw [← hpair]
        intro habs
        exact htitle (by simpa using congrArg String.data habs)
      · show ((extractLinks html.data).getD i ("", "")).1 ≠ ""
        rw [← hpair]
        intro habs
        exact hurl (by simpa using congrArg String.data habs)
  · decide

/-- C7 counterexample: heading replacements insert *single* newlines
(`\n# $1\n`), not blank lines.  For `"a<h1>Hi</h1>b"` the output is
`"a\n# Hi\nb"`: the heading line is not surrounded by blank lines —
the output contains no two consecutive newlines at all. -/
theorem C7_heading_counterexample :
    (htmlToMarkdown "a<h1>Hi</h1>b").content = "a\n# Hi\nb"
    ∧ containsSub "\n\n".data ("a\n# Hi\nb").data = false := by
  exact ⟨by decide, by decide⟩

/-- C7 (amended): h1–h3 rewrite to the distinct prefixes `#`, `##`,
`###` and h4–h6 collectively to `####`, each heading placed on its own
line by a single leading and trailing newline (blank lines are not
added, and the final trim removes the newlines at the edges):
`<h1>Hi</h1>` alone converts to `"# Hi"`. -/
theorem C7_heading_amended :
    (htmlToMarkdown "<h1>Hi</h1>").content = "# Hi"
    ∧ (htmlToMarkdown "a<h1>Hi</h1>b").content = "a\n# Hi\nb"
    ∧ (htmlToMarkdown "x<h2>T</h2>y").content = "x\n## T\ny"
    ∧ (htmlToMarkdown "x<h3>T</h3>y").content = "x\n### T\ny"
    ∧ (htmlToMarkdown "x<h4>T</h4>y").content = "x\n#### T\ny"
    ∧ (htmlToMarkdown "x<h5>T</h5>y").content = "x\n#### T\ny"
    ∧ (htmlToMarkdown "x<h6>T</h6>y").content = "x\n#### T\ny" := by
  refine ⟨by decide, by decide, by decide, by decide, by decide, by decide, by decide⟩

/-- C9: `htmlToMarkdown` is total: it is a plain total function in this
embedding (every pass is a structurally terminating scan, and every
JavaScript primitive the source uses — `match`, `replace`, `split`,
`map`, `join`, `trim`, `String.fromCharCode` — is non-throwing), so
every input string yields a result; malformed markup degrades instead
of erroring. -/
theorem C9_htmlToMarkdown_total :
    (∀ s : String, ∃ out : MdResult, htmlToMarkdown s = out)
    ∧ (htmlToMarkdown "<h1>unclosed").content = "unclosed"
    ∧ (htmlToMarkdown "<script>bad()</script>keep").content = "keep"
    ∧ (htmlToMarkdown "<<!-- <p <br <a href=").content = "<<!-- <p <br <a href=" := by
  refine ⟨fun s => ⟨htmlToMarkdown s, rfl⟩, by decide, by decide, by decide⟩

/-- C8 witness: the amended theorem applied to the (only) result of the
example page: its title and url are non-empty. -/
theorem C8_extractor_amended_witness :
    (⟨"A & <ok> &#169;", "https://s.example/", ""⟩ : SearchResult).title ≠ ""
    ∧ (⟨"A & <ok> &#169;", "https://s.example/", ""⟩ : SearchResult).url ≠ "" :=
  C8_extractor_amended.1 c8bHtml 10
    ⟨"A & <ok> &#169;", "https://s.example/", ""⟩ (by decide)

end Mcp
